import Mathlib

/-!
Shallow embedding of the soft heap implementation in src/softheap.c
(binary-tree soft heaps in the style of Kaplan and Zwick).

Modelling conventions:
* C doubles are modelled as exact rationals; the library formula
  ceil(log(epsilon)/log(2)) is modelled as the exact ceiling logarithm
  Int.clog 2 epsilon.
* C int fields (ckey, rank, size, nelems, list elements) are modelled as Int.
  C integer division truncates toward zero, which is Int.tdiv.
* The doubly linked item list of a node is modelled as a List Int
  (first-to-last order); nelems is kept as a separate field exactly as in C.
* The doubly linked root list of a heap is modelled as a List tree
  (first-to-next order).  A sufmin pointer is modelled as the offset (a Nat)
  of the pointed-to tree from the pointing tree inside the root list:
  offset 0 means the tree itself, matching T->sufmin = T.
* Process aborts are modelled as values of an error type: error() calls
  are callerError, assert() failures are assertFail, and dereferences of
  NULL pointers are nullDeref.
* The recursion of sift (a while loop around a recursive call) is defined
  with explicit fuel; the heap operations invoke it with fuel that is shown
  (lemma siftFuel_enough) to exceed the number of its loop iterations, so
  the fueled function agrees with the C recursion at every call site.
-/

namespace SoftHeap

/-- Outcome of a process abort in the C library: a caller error (error() with
a message), an assertion failure, or a dereference of a NULL pointer. -/
inductive SHErr : Type where
  | callerError : SHErr
  | assertFail : SHErr
  | nullDeref : SHErr
deriving DecidableEq, Repr

mutual

/-- A TREENODE of softheap.c: left and right children, the item list
(with its length tracked separately in nelems, as in C), and the fields
ckey, rank, size.  The first/last pointers of the C struct are the two ends
of the items list. -/
inductive node : Type where
  | mk : onode → onode → List Int → Int → Int → Int → Int → node

/-- An optional child pointer (node* that may be NULL). -/
inductive onode : Type where
  | none : onode
  | some : node → onode

end

deriving instance DecidableEq for node
deriving instance DecidableEq for onode
deriving instance DecidableEq for Except

/-- Left child of a node. -/
def node.left : node → onode
  | .mk l _ _ _ _ _ _ => l

/-- Right child of a node. -/
def node.right : node → onode
  | .mk _ r _ _ _ _ _ => r

/-- Item list of a node, first cell first. -/
def node.items : node → List Int
  | .mk _ _ it _ _ _ _ => it

/-- The ckey field of a node. -/
def node.ckey : node → Int
  | .mk _ _ _ ck _ _ _ => ck

/-- The rank field of a node. -/
def node.rank : node → Int
  | .mk _ _ _ _ rk _ _ => rk

/-- The size field of a node. -/
def node.size : node → Int
  | .mk _ _ _ _ _ sz _ => sz

/-- The nelems field of a node. -/
def node.nelems : node → Int
  | .mk _ _ _ _ _ _ ne => ne

/-- Function leaf of softheap.c: true iff both children are NULL. -/
def leaf (x : node) : Prop := x.left = onode.none ∧ x.right = onode.none

instance (x : node) : Decidable (leaf x) :=
  inferInstanceAs (Decidable (x.left = onode.none ∧ x.right = onode.none))

/-- Function get_r of softheap.c: ceil(log(epsilon)/log(2)) + 5, i.e. the
ceiling of the base-2 logarithm of epsilon, plus 5 (real arithmetic modelled
exactly). -/
def get_r (epsilon : ℚ) : Int := Int.clog 2 epsilon + 5

/-- Function max of softheap.c. -/
def cmax (x y : ℚ) : ℚ := if x ≥ y then x else y

/-- Function min of softheap.c. -/
def cmin (x y : ℚ) : ℚ := if x ≤ y then x else y

/-- Function swapLR of softheap.c: swap the children of a node. -/
def swapLR (x : node) : node :=
  node.mk x.right x.left x.items x.ckey x.rank x.size x.nelems

/-- Function get_next_size of softheap.c: 1 if rank <= r, else
(3 * prevrank_size + 1)/2 with C integer division (truncation). -/
def get_next_size (rank prevrank_size r : Int) : Int :=
  if rank ≤ r then 1 else Int.tdiv (3 * prevrank_size + 1) 2

/-- Function makenode of softheap.c: a rank-0 node holding exactly elem. -/
def makenode (elem : Int) : node :=
  node.mk onode.none onode.none [elem] elem 0 1 1

/-- A TREE of softheap.c.  The prev/next pointers are implicit in the
position of the tree inside the root list; sufmin is the offset of the
pointed-to tree from this tree in the root list (0 = this tree itself). -/
structure tree : Type where
  root : node
  rank : Int
  sufmin : Nat
deriving DecidableEq

/-- A SOFTHEAP of softheap.c: the root list (first tree first), the rank of
the highest-order tree (-1 when empty), epsilon and r. -/
structure softheap : Type where
  first : List tree
  rank : Int
  epsilon : ℚ
  r : Int
deriving DecidableEq

/-- Function maketree of softheap.c: one tree of rank 0 whose sufmin is
itself. -/
def maketree (elem : Int) : tree :=
  { root := makenode elem, rank := 0, sufmin := 0 }

/-- Function makeheap_empty of softheap.c: aborts unless epsilon lies in
(0,1); otherwise an empty heap with rank -1 and r = get_r epsilon. -/
def makeheap_empty (epsilon : ℚ) : Except SHErr softheap :=
  if epsilon ≤ 0 ∨ epsilon ≥ 1 then .error .callerError
  else .ok { first := [], rank := -1, epsilon := epsilon, r := get_r epsilon }

/-- Function makeheap of softheap.c: an empty heap whose root list is
replaced by a single rank-0 tree containing elem. -/
def makeheap (elem : Int) (epsilon : ℚ) : Except SHErr softheap := do
  let s ← makeheap_empty epsilon
  return { s with first := [maketree elem], rank := 0 }

/-- Function empty of softheap.c: the heap has no trees. -/
def empty (P : softheap) : Prop := P.first = []

instance (P : softheap) : Decidable (empty P) :=
  inferInstanceAs (Decidable (P.first = []))

mutual

/-- Number of nodes in the subtree of a node (for sift fuel accounting). -/
def ncount : node → Nat
  | .mk l r _ _ _ _ _ => 1 + ocount l + ocount r

/-- Number of nodes under an optional child. -/
def ocount : onode → Nat
  | .none => 0
  | .some x => ncount x

end

mutual

/-- Total number of items in the subtree of a node. -/
def titems : node → Nat
  | .mk l r it _ _ _ _ => it.length + otitems l + otitems r

/-- Total number of items under an optional child. -/
def otitems : onode → Nat
  | .none => 0
  | .some x => titems x

end

mutual

/-- Depth-weighted item count: each item counts once per edge between its
node and the root of the subtree.  Every iteration of the sift loop moves a
nonempty item list one level up or removes a node, so this quantity plus
the node count bounds the iterations of sift. -/
def witems : node → Nat
  | .mk l r _ _ _ _ _ => owitems l + owitems r

/-- Depth-weighted item count under an optional child. -/
def owitems : onode → Nat
  | .none => 0
  | .some x => witems x + titems x

end

/-- Fuel that suffices for sift at a node: depth-weighted items plus node
count (see witems). -/
def siftFuel (x : node) : Nat := witems x + ncount x + 1

/-- The body of moveList plus the ckey update of sift, specialized to the
way sift uses it: x steals the item list and ckey of its left child l.
The C moveList appends the cells of l to the end of the list of x and adds
l.nelems to x.nelems; sift then sets x->ckey = x->left->ckey. -/
def stealLeft (x l : node) : node :=
  node.mk x.left x.right (x.items ++ l.items) l.ckey x.rank x.size
    (x.nelems + l.nelems)

/-- The left child after moveList emptied it: list and nelems zeroed. -/
def emptied (l : node) : node :=
  node.mk l.left l.right [] l.ckey l.rank l.size 0

/-- Replace the left child of a node. -/
def setLeft (x : node) (l : onode) : node :=
  node.mk l x.right x.items x.ckey x.rank x.size x.nelems

/-- The ckey behind an optional node pointer, defaulting to 0 for NULL;
the default is only ever produced on code paths where the C code would not
dereference the pointer. -/
def onode.ckeyD : onode → Int
  | .none => 0
  | .some x => x.ckey

/-- The child swap at the top of the sift loop: switch left and right when
the left child is NULL, or when both exist and the left has larger ckey. -/
def siftSwap (x : node) : node :=
  if x.left = onode.none ∨
      (x.right ≠ onode.none ∧ x.left.ckeyD > x.right.ckeyD) then
    swapLR x
  else x

/-- Function sift of softheap.c, with explicit fuel.  Each fuel unit pays
for one iteration of the while loop (with its inner recursive call paid
from the same fuel).  Returning with exhausted fuel is benign here; the
operations call sift through the wrapper below with sufficient fuel.
The assert of moveList (src->first != NULL) is modelled by assertFail and
the dereference of x->left by nullDeref. -/
def siftF : Nat → node → Except SHErr node
  | 0, x => .ok x
  | f + 1, x =>
    if x.nelems < x.size ∧ ¬ leaf x then
      match (siftSwap x).left with
      | onode.none => .error .nullDeref
      | onode.some l =>
        if l.items = [] then .error .assertFail
        else if leaf l then
          siftF f (setLeft (stealLeft (siftSwap x) l) onode.none)
        else
          (siftF f (emptied l)).bind
            (fun l2 => siftF f (setLeft (stealLeft (siftSwap x) l) (onode.some l2)))
    else .ok x

/-- Function sift of softheap.c: the fueled recursion run with enough fuel
for all of its loop iterations. -/
def sift (x : node) : Except SHErr node := siftF (siftFuel x) x

/-- Function combine of softheap.c: new node z with children x and y,
rank x.rank + 1, empty list, size from get_next_size, then sift.  The C
code leaves z->ckey uninitialized; sift overwrites it before any read
(z is deficient and not a leaf), so the initial value 0 is never observed. -/
def combine (x y : node) (r : Int) : Except SHErr node :=
  sift (node.mk (onode.some x) (onode.some y) [] 0 (x.rank + 1)
    (get_next_size (x.rank + 1) x.size r) 0)

/-- The ckey of the root of the tree pointed to by the sufmin pointer of the
head of a root-list segment (what T->next->sufmin->root->ckey reads when the
segment starts at T->next).  A dangling offset falls back to the head's own
root ckey; well-formed heaps never produce that case. -/
def sufTargetCkey : List tree → Int
  | [] => 0
  | u :: rest =>
    match (u :: rest).get? u.sufmin with
    | Option.some w => w.root.ckey
    | Option.none => u.root.ckey

/-- One step of update_suffix_min: recompute the sufmin pointer of tree t
whose successor segment is suf (T->sufmin = T when T->next == NULL or the
own root ckey is no larger than the successor segment minimum, else
T->sufmin = T->next->sufmin). -/
def usmHead (t : tree) (suf : List tree) : tree :=
  match suf with
  | [] => { t with sufmin := 0 }
  | u :: _ =>
    if t.root.ckey ≤ sufTargetCkey suf then { t with sufmin := 0 }
    else { t with sufmin := u.sufmin + 1 }

/-- Function update_suffix_min of softheap.c, processing the trees from T
backwards to the head of the root list.  The first argument is the list of
trees from T back to the head (reversed prefix); the second is the segment
after T, whose sufmin pointers the C loop reads but never writes. -/
def usmRev : List tree → List tree → List tree
  | [], suf => suf
  | t :: pr, suf => usmRev pr (usmHead t suf :: suf)

/-- update_suffix_min applied at index k of a root list: rewrites the sufmin
pointers of positions 0..k and leaves positions after k untouched. -/
def update_suffix_min (l : List tree) (k : Nat) : List tree :=
  usmRev ((l.take (k+1)).reverse) (l.drop (k+1))

/-- Function merge_into of softheap.c, with explicit fuel (each fuel unit
pays for one step of either the outer currP walk or the inner currQ walk;
the wrapper below supplies fuel exceeding the sum of the list lengths, so
the fuel never runs out).  The trees of the first list (heap P, of no
greater rank) are spliced into the second list (heap Q), each immediately
before the first tree of Q with equal or greater rank.  If the walk down Q
runs past its end while a P tree remains, the C code dereferences
currQ == NULL. -/
def mergeIntoF : Nat → List tree → List tree → Except SHErr (List tree)
  | 0, _, _ => .error .nullDeref
  | _ + 1, [], q => .ok q
  | _ + 1, _ :: _, [] => .error .nullDeref
  | f + 1, p :: ps, q :: qs =>
    if q.rank < p.rank then (mergeIntoF f (p :: ps) qs).map (fun m => q :: m)
    else (mergeIntoF f ps (q :: qs)).map (fun m => p :: m)

/-- Function merge_into of softheap.c: the fueled walk with sufficient
fuel. -/
def merge_into (pl ql : List tree) : Except SHErr (List tree) :=
  mergeIntoF (pl.length + ql.length + 1) pl ql

/-- The loop of repeated_combine of softheap.c, with explicit fuel (each
fuel unit pays for one iteration; every iteration shortens the remaining
root list, so the wrapper below supplies sufficient fuel).  The first list
argument is the already-processed prefix (in reverse, most recent first),
the second is the segment from curr onward.  Returns the final prefix,
curr, and the trees after curr when the loop exits (curr->next == NULL) or
breaks. -/
def rcF (r sr : Int) : Nat → List tree → List tree → Except SHErr (List tree × tree × List tree)
  | 0, _, _ => .error .nullDeref
  | _ + 1, _, [] => .error .nullDeref
  | _ + 1, preRev, [curr] => .ok (preRev, curr, [])
  | f + 1, preRev, curr :: next :: rest =>
    let two : Bool := curr.rank == next.rank
    let three : Bool := two && (match rest with
      | n2 :: _ => curr.rank == n2.rank
      | [] => false)
    if ¬ two then
      if curr.rank > sr then .ok (preRev, curr, next :: rest)
      else rcF r sr f (curr :: preRev) (next :: rest)
    else if three then
      rcF r sr f (curr :: preRev) (next :: rest)
    else
      (combine curr.root next.root r).bind (fun z =>
        rcF r sr f preRev ({ curr with root := z, rank := z.rank } :: rest))

/-- The repeated_combine loop run with sufficient fuel. -/
def rc_aux (r sr : Int) (preRev l : List tree) : Except SHErr (List tree × tree × List tree) :=
  rcF r sr (l.length + 1) preRev l

/-- Function repeated_combine of softheap.c: run the combining loop from the
head of the root list, then raise the heap rank if the final curr outranks
it, and update the suffix-min pointers backwards from the final curr.  When
the root list is empty the C code dereferences curr == NULL in the loop
condition. -/
def repeated_combine (Q : softheap) (smaller_rank r : Int) : Except SHErr softheap :=
  match Q.first with
  | [] => .error .nullDeref
  | t :: ts => do
    let (preRev, curr, rest) ← rc_aux r smaller_rank [] (t :: ts)
    let rank2 := if curr.rank > Q.rank then curr.rank else Q.rank
    .ok { Q with first := usmRev (curr :: preRev) rest, rank := rank2 }

/-- Function meld of softheap.c: abort if the epsilons disagree beyond the
relative tolerance 0.001, else merge the lower-rank heap into the
higher-rank heap and run repeated_combine on it. -/
def meld (P Q : softheap) : Except SHErr softheap :=
  let max_eps := cmax P.epsilon Q.epsilon
  let min_eps := cmin P.epsilon Q.epsilon
  let eps_off := 1 - min_eps / max_eps
  if eps_off > 1/1000 then .error .callerError
  else if P.rank ≥ Q.rank then do
    let merged ← merge_into Q.first P.first
    repeated_combine { P with first := merged } Q.rank P.r
  else do
    let merged ← merge_into P.first Q.first
    repeated_combine { Q with first := merged } P.rank Q.r

/-- Function insert of softheap.c: an empty heap directly receives a new
rank-0 tree; otherwise the element is melded in as a singleton heap made
with the same epsilon. -/
def insert (P : softheap) (elem : Int) : Except SHErr softheap :=
  if empty P then .ok { P with first := [maketree elem], rank := 0 }
  else do
    let s ← makeheap elem P.epsilon
    meld P s

/-- Function extract_elem of softheap.c restricted to the node update: the
head item is removed and nelems decremented (the returned element is read
off separately).  The assert x->first != NULL is checked by the caller
below. -/
def popped (x : node) : node :=
  node.mk x.left x.right x.items.tail x.ckey x.rank x.size (x.nelems - 1)

/-- Function extract_min_with_ckey of softheap.c.  Returns the extracted
element, the ckey it was traveling under, and the heap after the
extraction.  Aborts (callerError) on an empty heap; the assert inside
extract_elem is assertFail; a dangling sufmin offset is nullDeref
(well-formed heaps never produce it). -/
def extract_min_with_ckey (P : softheap) : Except SHErr (Int × Int × softheap) :=
  match P.first with
  | [] => .error .callerError
  | t0 :: _ =>
    let k := t0.sufmin
    match P.first.get? k with
    | Option.none => .error .nullDeref
    | Option.some T =>
      let x := T.root
      match x.items with
      | [] => .error .assertFail
      | e :: _ =>
        let x2 := popped x
        let ck := x2.ckey
        if x2.nelems ≤ Int.tdiv x2.size 2 then
          if ¬ leaf x2 then do
            let x3 ← sift x2
            let l2 := P.first.set k { T with root := x3 }
            .ok (e, ck, { P with first := update_suffix_min l2 k })
          else if x2.nelems = 0 then
            let l2 := P.first.eraseIdx k
            let rank2 :=
              if k + 1 = P.first.length then
                (if k = 0 then -1
                 else match l2.get? (k-1) with
                   | Option.some u => u.rank
                   | Option.none => P.rank)
              else P.rank
            let first2 := if k = 0 then l2 else update_suffix_min l2 (k-1)
            .ok (e, ck, { P with first := first2, rank := rank2 })
          else .ok (e, ck, { P with first := P.first.set k { T with root := x2 } })
        else .ok (e, ck, { P with first := P.first.set k { T with root := x2 } })

/-- Function extract_min of softheap.c: extract_min_with_ckey with the ckey
discarded. -/
def extract_min (P : softheap) : Except SHErr (Int × softheap) :=
  (extract_min_with_ckey P).map (fun ec => (ec.1, ec.2.2))

mutual

/-- Number of corrupted items in the subtree of a node: items traveling
under a ckey strictly above their original key. -/
def ncorrupt : node → Nat
  | .mk l r it ck _ _ _ => (it.filter (fun e => e < ck)).length + ocorrupt l + ocorrupt r

/-- Corrupted items under an optional child. -/
def ocorrupt : onode → Nat
  | .none => 0
  | .some x => ncorrupt x

end

/-- Number of corrupted items currently in the heap. -/
def corrupted (P : softheap) : Nat :=
  (P.first.map (fun t => ncorrupt t.root)).sum

mutual

/-- All items in the subtree of a node, as a list. -/
def nitemsL : node → List Int
  | .mk l r it _ _ _ _ => it ++ oitemsL l ++ oitemsL r

/-- All items under an optional child. -/
def oitemsL : onode → List Int
  | .none => []
  | .some x => nitemsL x

end

/-- All items currently in the heap, as a list. -/
def heapItems (P : softheap) : List Int :=
  (P.first.map (fun t => nitemsL t.root)).flatten

/-- Projection lemmas for the node constructors and helpers. -/
theorem node_left_mk (l r : onode) (it : List Int) (ck rk sz ne : Int) :
    (node.mk l r it ck rk sz ne).left = l := rfl

theorem node_right_mk (l r : onode) (it : List Int) (ck rk sz ne : Int) :
    (node.mk l r it ck rk sz ne).right = r := rfl

theorem node_items_mk (l r : onode) (it : List Int) (ck rk sz ne : Int) :
    (node.mk l r it ck rk sz ne).items = it := rfl

theorem node_ckey_mk (l r : onode) (it : List Int) (ck rk sz ne : Int) :
    (node.mk l r it ck rk sz ne).ckey = ck := rfl

theorem node_rank_mk (l r : onode) (it : List Int) (ck rk sz ne : Int) :
    (node.mk l r it ck rk sz ne).rank = rk := rfl

theorem node_size_mk (l r : onode) (it : List Int) (ck rk sz ne : Int) :
    (node.mk l r it ck rk sz ne).size = sz := rfl

theorem node_nelems_mk (l r : onode) (it : List Int) (ck rk sz ne : Int) :
    (node.mk l r it ck rk sz ne).nelems = ne := rfl

attribute [simp] node_left_mk node_right_mk node_items_mk node_ckey_mk
  node_rank_mk node_size_mk node_nelems_mk

/-- The size field is untouched by the child swap of sift. -/
theorem siftSwap_size (x : node) : (siftSwap x).size = x.size := by
  unfold siftSwap swapLR; split <;> simp

/-- The rank field is untouched by the child swap of sift. -/
theorem siftSwap_rank (x : node) : (siftSwap x).rank = x.rank := by
  unfold siftSwap swapLR; split <;> simp

/-- The item list is untouched by the child swap of sift. -/
theorem siftSwap_items (x : node) : (siftSwap x).items = x.items := by
  unfold siftSwap swapLR; split <;> simp

/-- The nelems field is untouched by the child swap of sift. -/
theorem siftSwap_nelems (x : node) : (siftSwap x).nelems = x.nelems := by
  unfold siftSwap swapLR; split <;> simp

/-- sift changes neither the size nor the rank of the node it repairs. -/
theorem siftF_size_rank :
    ∀ (f : Nat) (x y : node), siftF f x = .ok y → y.size = x.size ∧ y.rank = x.rank := by
  intro f
  induction f with
  | zero =>
    intro x y h
    simp only [siftF] at h
    cases h
    exact ⟨rfl, rfl⟩
  | succ f ih =>
    intro x y h
    simp only [siftF] at h
    split at h
    · split at h
      · exact absurd h (by simp)
      · rename_i l hL
        split at h
        · exact absurd h (by simp)
        · split at h
          · obtain ⟨h1, h2⟩ := ih _ _ h
            simp only [setLeft, stealLeft, node_size_mk, node_rank_mk,
              siftSwap_size, siftSwap_rank] at h1 h2
            exact ⟨h1, h2⟩
          · cases hl2 : siftF f (emptied l) with
            | error e => rw [hl2] at h; simp [Except.bind] at h
            | ok l2 =>
              rw [hl2] at h
              simp only [Except.bind] at h
              obtain ⟨h1, h2⟩ := ih _ _ h
              simp only [setLeft, stealLeft, node_size_mk, node_rank_mk,
                siftSwap_size, siftSwap_rank] at h1 h2
              exact ⟨h1, h2⟩
    · cases h
      exact ⟨rfl, rfl⟩

theorem owitems_some (z : node) : owitems (onode.some z) = witems z + titems z := rfl

theorem owitems_none : owitems onode.none = 0 := rfl

theorem ocount_some (z : node) : ocount (onode.some z) = ncount z := rfl

theorem ocount_none : ocount onode.none = 0 := rfl

theorem otitems_some (z : node) : otitems (onode.some z) = titems z := rfl

theorem otitems_none : otitems onode.none = 0 := rfl

attribute [simp] owitems_some owitems_none ocount_some ocount_none
  otitems_some otitems_none

theorem witems_eq (x : node) : witems x = owitems x.left + owitems x.right := by
  cases x; rfl

theorem ncount_eq (x : node) : ncount x = 1 + ocount x.left + ocount x.right := by
  cases x; rfl

theorem titems_eq (x : node) :
    titems x = x.items.length + otitems x.left + otitems x.right := by
  cases x; rfl

/-- Projection behavior of the sift helpers. -/
theorem stealLeft_left (x l : node) : (stealLeft x l).left = x.left := rfl

theorem stealLeft_right (x l : node) : (stealLeft x l).right = x.right := rfl

theorem stealLeft_items (x l : node) : (stealLeft x l).items = x.items ++ l.items := rfl

theorem stealLeft_ckey (x l : node) : (stealLeft x l).ckey = l.ckey := rfl

theorem stealLeft_size (x l : node) : (stealLeft x l).size = x.size := rfl

theorem stealLeft_nelems (x l : node) : (stealLeft x l).nelems = x.nelems + l.nelems := rfl

theorem setLeft_left (x : node) (c : onode) : (setLeft x c).left = c := rfl

theorem setLeft_right (x : node) (c : onode) : (setLeft x c).right = x.right := rfl

theorem setLeft_items (x : node) (c : onode) : (setLeft x c).items = x.items := rfl

theorem setLeft_ckey (x : node) (c : onode) : (setLeft x c).ckey = x.ckey := rfl

theorem setLeft_size (x : node) (c : onode) : (setLeft x c).size = x.size := rfl

theorem setLeft_nelems (x : node) (c : onode) : (setLeft x c).nelems = x.nelems := rfl

theorem emptied_left (l : node) : (emptied l).left = l.left := rfl

theorem emptied_right (l : node) : (emptied l).right = l.right := rfl

theorem emptied_items (l : node) : (emptied l).items = [] := rfl

theorem emptied_ckey (l : node) : (emptied l).ckey = l.ckey := rfl

theorem emptied_size (l : node) : (emptied l).size = l.size := rfl

theorem emptied_nelems (l : node) : (emptied l).nelems = 0 := rfl

attribute [simp] stealLeft_left stealLeft_right stealLeft_items stealLeft_ckey
  stealLeft_size stealLeft_nelems setLeft_left setLeft_right setLeft_items
  setLeft_ckey setLeft_size setLeft_nelems emptied_left emptied_right
  emptied_items emptied_ckey emptied_size emptied_nelems

mutual

/-- Structural well-formedness of a soft heap tree node at rest: the ckey
bounds every item in the list, the list is nonempty, nelems agrees with the
list length, the size is at least 1, and both children (when present) have
ckeys at least the ckey of this node and are themselves well-formed. -/
def NodeWF : node → Prop
  | .mk l r it ck _ sz ne =>
    (∀ k ∈ it, k ≤ ck) ∧ it ≠ [] ∧ ne = (it.length : Int) ∧ 1 ≤ sz ∧
    OWF ck l ∧ OWF ck r

/-- Well-formedness of an optional child with respect to the parent ckey. -/
def OWF (ck : Int) : onode → Prop
  | .none => True
  | .some c => ck ≤ c.ckey ∧ NodeWF c

end

/-- Well-formedness of an optional child without the parent ckey relation. -/
def ChildWF : onode → Prop
  | .none => True
  | .some c => NodeWF c

/-- The heap-order relation of a parent ckey to an optional child. -/
def ChildLe (ck : Int) : onode → Prop
  | .none => True
  | .some c => ck ≤ c.ckey

theorem OWF_iff (ck : Int) (o : onode) : OWF ck o ↔ ChildLe ck o ∧ ChildWF o := by
  cases o <;> simp [OWF, ChildLe, ChildWF]

theorem NodeWF_iff (x : node) :
    NodeWF x ↔ (∀ k ∈ x.items, k ≤ x.ckey) ∧ x.items ≠ [] ∧
      x.nelems = (x.items.length : Int) ∧ 1 ≤ x.size ∧
      OWF x.ckey x.left ∧ OWF x.ckey x.right := by
  cases x
  exact Iff.rfl

/-- The precondition under which sift is invoked: the bookkeeping fields of
the argument agree with its list, both subtrees are well-formed, and when
the list is nonempty the ckey also satisfies heap order with the children
(a node freshly allocated by combine has an empty list and an uninitialized
ckey, which sift overwrites before reading). -/
def SiftPre (x : node) : Prop :=
  x.nelems = (x.items.length : Int) ∧ 1 ≤ x.size ∧
  (∀ k ∈ x.items, k ≤ x.ckey) ∧ ChildWF x.left ∧ ChildWF x.right ∧
  (x.items ≠ [] → ChildLe x.ckey x.left ∧ ChildLe x.ckey x.right)

/-- The child swap preserves the fuel measures. -/
theorem siftSwap_witems (x : node) : witems (siftSwap x) = witems x := by
  unfold siftSwap swapLR
  split
  · cases x
    simp [witems]
    omega
  · rfl

theorem siftSwap_ncount (x : node) : ncount (siftSwap x) = ncount x := by
  unfold siftSwap swapLR
  split
  · cases x
    simp [ncount]
    omega
  · rfl

theorem siftSwap_titems (x : node) : titems (siftSwap x) = titems x := by
  unfold siftSwap swapLR
  split
  · cases x
    simp [titems]
    omega
  · rfl

/-- After the swap, the left child of a non-leaf node exists. -/
theorem siftSwap_left_some (x : node) (hx : ¬ leaf x) :
    (siftSwap x).left ≠ onode.none := by
  obtain ⟨l, r, it, ck, rk, sz, ne⟩ := x
  simp only [leaf, node_left_mk, node_right_mk, not_and] at hx
  simp only [siftSwap, swapLR, node_left_mk, node_right_mk]
  split_ifs with h
  · simp only [node_left_mk]
    rcases h with h | ⟨h1, _⟩
    · exact fun hr => (hx h) hr
    · exact h1
  · push_neg at h
    simp only [node_left_mk]
    exact h.1

/-- After the swap, the left child has the smaller ckey when both exist. -/
theorem siftSwap_le (x a b : node)
    (ha : (siftSwap x).left = onode.some a) (hb : (siftSwap x).right = onode.some b) :
    a.ckey ≤ b.ckey := by
  obtain ⟨l, r, it, ck, rk, sz, ne⟩ := x
  simp only [siftSwap, swapLR, node_left_mk, node_right_mk] at ha hb
  split_ifs at ha hb with h
  · simp only [node_left_mk] at ha
    simp only [node_right_mk] at hb
    rcases h with h | ⟨_, h2⟩
    · rw [h] at hb
      cases hb
    · rw [ha, hb] at h2
      simp only [onode.ckeyD] at h2
      omega
  · push_neg at h
    simp only [node_left_mk] at ha
    simp only [node_right_mk] at hb
    have h2 := h.2 (by rw [hb]; intro hc; cases hc)
    rw [ha, hb] at h2
    simp only [onode.ckeyD] at h2
    omega

/-- The swap leaves each child relation intact up to exchanging sides. -/
theorem siftSwap_children (x : node) :
    ((siftSwap x).left = x.left ∧ (siftSwap x).right = x.right) ∨
    ((siftSwap x).left = x.right ∧ (siftSwap x).right = x.left) := by
  unfold siftSwap swapLR
  split
  · right
    cases x
    exact ⟨rfl, rfl⟩
  · left
    exact ⟨rfl, rfl⟩

/-- The fuel measures never grow along a sift: the total item count is
preserved exactly, and both the Phi measure (witems + ncount) and the V
measure (witems + titems + ncount) are nonincreasing. -/
theorem sift_measures : ∀ (f : Nat) (x y : node), siftF f x = .ok y →
    titems y = titems x ∧
    witems y + ncount y ≤ witems x + ncount x ∧
    witems y + titems y + ncount y ≤ witems x + titems x + ncount x := by
  intro f
  induction f with
  | zero =>
    intro x y h
    simp only [siftF] at h
    cases h
    exact ⟨rfl, le_refl _, le_refl _⟩
  | succ f ih =>
    intro x y h
    simp only [siftF] at h
    split at h
    · split at h
      · simp at h
      · rename_i l heq
        split at h
        · simp at h
        · rename_i hne
          have hsw_w : witems (siftSwap x) = witems x := siftSwap_witems x
          have hsw_c : ncount (siftSwap x) = ncount x := siftSwap_ncount x
          have hsw_t : titems (siftSwap x) = titems x := siftSwap_titems x
          have hswl : owitems (siftSwap x).left = witems l + titems l := by
            rw [heq, owitems_some]
          have hswl2 : ocount (siftSwap x).left = ncount l := by
            rw [heq, ocount_some]
          have hswl3 : otitems (siftSwap x).left = titems l := by
            rw [heq, otitems_some]
          have hW : witems x = witems l + titems l + owitems (siftSwap x).right := by
            rw [← hsw_w, witems_eq, hswl]
          have hC : ncount x = 1 + ncount l + ocount (siftSwap x).right := by
            rw [← hsw_c, ncount_eq, hswl2]
          have hT : titems x =
              (siftSwap x).items.length + titems l + otitems (siftSwap x).right := by
            rw [← hsw_t, titems_eq, hswl3]
          have hTl : titems l = l.items.length + otitems l.left + otitems l.right :=
            titems_eq l
          have hWl : witems l = owitems l.left + owitems l.right := witems_eq l
          have hCl : ncount l = 1 + ocount l.left + ocount l.right := ncount_eq l
          split at h
          · rename_i hlf
            obtain ⟨hlfL, hlfR⟩ := hlf
            obtain ⟨e1, e2, e3⟩ := ih _ _ h
            have k1 : witems (setLeft (stealLeft (siftSwap x) l) onode.none) =
                owitems (siftSwap x).right := by
              rw [witems_eq]; simp
            have k2 : ncount (setLeft (stealLeft (siftSwap x) l) onode.none) =
                1 + ocount (siftSwap x).right := by
              rw [ncount_eq]; simp
            have k3 : titems (setLeft (stealLeft (siftSwap x) l) onode.none) =
                (siftSwap x).items.length + l.items.length +
                  otitems (siftSwap x).right := by
              rw [titems_eq]; simp [List.length_append]
            rw [k3] at e1
            rw [k1, k2] at e2
            rw [k1, k2, k3] at e3
            rw [hlfL, hlfR] at hTl hWl hCl
            simp only [otitems_none, owitems_none, ocount_none] at hTl hWl hCl
            refine ⟨?_, ?_, ?_⟩ <;> omega
          · cases hl2 : siftF f (emptied l) with
            | error e => rw [hl2] at h; simp [Except.bind] at h
            | ok l2 =>
              rw [hl2] at h
              simp only [Except.bind] at h
              obtain ⟨i1, i2, i3⟩ := ih _ _ hl2
              have j1 : witems (emptied l) = witems l := by
                rw [witems_eq, witems_eq]; simp
              have j2 : ncount (emptied l) = ncount l := by
                rw [ncount_eq, ncount_eq]; simp
              have j3 : titems (emptied l) = otitems l.left + otitems l.right := by
                rw [titems_eq]; simp
              rw [j3] at i1
              rw [j1, j2] at i2
              rw [j1, j2, j3] at i3
              obtain ⟨e1, e2, e3⟩ := ih _ _ h
              have k1 : witems (setLeft (stealLeft (siftSwap x) l) (onode.some l2)) =
                  witems l2 + titems l2 + owitems (siftSwap x).right := by
                rw [witems_eq]; simp
              have k2 : ncount (setLeft (stealLeft (siftSwap x) l) (onode.some l2)) =
                  1 + ncount l2 + ocount (siftSwap x).right := by
                rw [ncount_eq]; simp
              have k3 : titems (setLeft (stealLeft (siftSwap x) l) (onode.some l2)) =
                  (siftSwap x).items.length + l.items.length + titems l2 +
                    otitems (siftSwap x).right := by
                rw [titems_eq]; simp [List.length_append]
              rw [k3] at e1
              rw [k1, k2] at e2
              rw [k1, k2, k3] at e3
              refine ⟨?_, ?_, ?_⟩ <;> omega
    · cases h
      exact ⟨rfl, le_refl _, le_refl _⟩

theorem oitemsL_some (z : node) : oitemsL (onode.some z) = nitemsL z := rfl

theorem oitemsL_none : oitemsL onode.none = [] := rfl

attribute [simp] oitemsL_some oitemsL_none

theorem nitemsL_eq (x : node) :
    nitemsL x = x.items ++ oitemsL x.left ++ oitemsL x.right := by
  cases x; rfl

/-- The multiset of items in a subtree, used to state preservation. -/
def nitemsM (x : node) : Multiset Int := (nitemsL x : Multiset Int)

theorem nitemsM_eq (x : node) :
    nitemsM x = (x.items : Multiset Int) + (oitemsL x.left : Multiset Int) +
      (oitemsL x.right : Multiset Int) := by
  rw [nitemsM, nitemsL_eq, ← Multiset.coe_add, ← Multiset.coe_add]

/-- The child swap permutes nothing: the item multiset is unchanged. -/
theorem siftSwap_itemsM (x : node) : nitemsM (siftSwap x) = nitemsM x := by
  unfold siftSwap swapLR
  split
  · cases x
    rw [nitemsM_eq, nitemsM_eq]
    simp only [node_left_mk, node_right_mk, node_items_mk]
    abel
  · rfl

/-- sift preserves the multiset of items in the subtree it repairs: every
moveList only transfers items, and a node is freed only after its list was
emptied into its parent. -/
theorem sift_itemsM : ∀ (f : Nat) (x y : node), siftF f x = .ok y →
    nitemsM y = nitemsM x := by
  intro f
  induction f with
  | zero =>
    intro x y h
    simp only [siftF] at h
    cases h
    rfl
  | succ f ih =>
    intro x y h
    simp only [siftF] at h
    split at h
    · split at h
      · simp at h
      · rename_i l heq
        split at h
        · simp at h
        · rename_i hne
          have hswM : nitemsM (siftSwap x) = nitemsM x := siftSwap_itemsM x
          have hswl : oitemsL (siftSwap x).left = nitemsL l := by
            rw [heq, oitemsL_some]
          split at h
          · rename_i hlf
            obtain ⟨hlfL, hlfR⟩ := hlf
            have e1 := ih _ _ h
            rw [e1, ← hswM, nitemsM_eq, nitemsM_eq]
            simp only [setLeft_left, setLeft_right, setLeft_items,
              stealLeft_right, stealLeft_items, oitemsL_none, hswl]
            rw [show (nitemsL l : Multiset Int) = (l.items : Multiset Int) from by
              rw [nitemsL_eq, hlfL, hlfR]; simp]
            rw [← Multiset.coe_add]
            abel
          · cases hl2 : siftF f (emptied l) with
            | error e => rw [hl2] at h; simp [Except.bind] at h
            | ok l2 =>
              rw [hl2] at h
              simp only [Except.bind] at h
              have i1 := ih _ _ hl2
              have e1 := ih _ _ h
              rw [e1, ← hswM, nitemsM_eq, nitemsM_eq]
              simp only [setLeft_left, setLeft_right, setLeft_items,
                stealLeft_right, stealLeft_items, oitemsL_some, hswl]
              rw [show (nitemsL l2 : Multiset Int) = nitemsM l2 from rfl, i1]
              rw [show nitemsM (emptied l) = (oitemsL l.left : Multiset Int) +
                  (oitemsL l.right : Multiset Int) from by
                rw [nitemsM_eq, emptied_left, emptied_right, emptied_items]
                simp]
              rw [show (nitemsL l : Multiset Int) = (l.items : Multiset Int) +
                  (oitemsL l.left : Multiset Int) + (oitemsL l.right : Multiset Int) from by
                rw [nitemsL_eq, ← Multiset.coe_add, ← Multiset.coe_add]]
              rw [← Multiset.coe_add]
              abel
    · cases h
      rfl

/-- A child slot of the swapped node was a child slot of the original. -/
theorem swap_left_orig (x : node) {o : onode} (h : (siftSwap x).left = o) :
    x.left = o ∨ x.right = o := by
  rcases siftSwap_children x with ⟨h1, _⟩ | ⟨h1, _⟩
  · left; rw [← h1, h]
  · right; rw [← h1, h]

theorem swap_right_orig (x : node) {o : onode} (h : (siftSwap x).right = o) :
    x.left = o ∨ x.right = o := by
  rcases siftSwap_children x with ⟨_, h2⟩ | ⟨_, h2⟩
  · right; rw [← h2, h]
  · left; rw [← h2, h]

theorem ChildLe_none (ck : Int) : ChildLe ck onode.none := trivial

theorem ChildLe_some {ck : Int} {c : node} (h : ck ≤ c.ckey) :
    ChildLe ck (onode.some c) := h

theorem ChildWF_none : ChildWF onode.none := trivial

/-- The central lemma about sift: with fuel exceeding the Phi measure and
the sift precondition, sift succeeds and returns a node whose list is
bounded by its ckey, whose bookkeeping matches, whose children are
well-formed and in heap order, which is nonempty whenever the input list
was nonempty or the loop ran, and whose ckey has not decreased (when the
input ckey was below its children, i.e. always except for the
uninitialized ckey of a fresh combine node). -/
theorem sift_main : ∀ (f : Nat) (x : node),
    witems x + ncount x < f → SiftPre x →
    ∃ y, siftF f x = .ok y ∧
      (∀ k ∈ y.items, k ≤ y.ckey) ∧
      y.nelems = (y.items.length : Int) ∧
      ChildWF y.left ∧ ChildWF y.right ∧
      ChildLe y.ckey y.left ∧ ChildLe y.ckey y.right ∧
      ((x.items ≠ [] ∨ (x.nelems < x.size ∧ ¬ leaf x)) → y.items ≠ []) ∧
      (ChildLe x.ckey x.left → ChildLe x.ckey x.right → x.ckey ≤ y.ckey) := by
  intro f
  induction f with
  | zero =>
    intro x hf
    exact absurd hf (Nat.not_lt_zero _)
  | succ f ih =>
    intro x hf hPre
    obtain ⟨hne_pre, hsz, hbound, hcwL, hcwR, hcond⟩ := hPre
    by_cases hc : x.nelems < x.size ∧ ¬ leaf x
    · obtain ⟨hdef, hnleaf⟩ := hc
      have hLsome := siftSwap_left_some x hnleaf
      rcases hL : (siftSwap x).left with _ | l
      · exact absurd hL hLsome
      have hlWF : NodeWF l := by
        rcases swap_left_orig x hL with h | h
        · rw [h] at hcwL; exact hcwL
        · rw [h] at hcwR; exact hcwR
      obtain ⟨hlb, hlne, hlnelems, hlsz, hlL, hlR⟩ := (NodeWF_iff l).mp hlWF
      have hlen : 0 < l.items.length := List.length_pos.mpr hlne
      have hstep : siftF (f+1) x =
          (if l.items = [] then .error .assertFail
           else if leaf l then
             siftF f (setLeft (stealLeft (siftSwap x) l) onode.none)
           else
             (siftF f (emptied l)).bind
               (fun l2 => siftF f (setLeft (stealLeft (siftSwap x) l)
                 (onode.some l2)))) := by
        simp only [siftF]
        rw [if_pos ⟨hdef, hnleaf⟩, hL]
      rw [if_neg hlne] at hstep
      have hsw_w : witems (siftSwap x) = witems x := siftSwap_witems x
      have hsw_c : ncount (siftSwap x) = ncount x := siftSwap_ncount x
      have hsw_it : (siftSwap x).items = x.items := siftSwap_items x
      have hsw_ne : (siftSwap x).nelems = x.nelems := siftSwap_nelems x
      have hsw_ck : (siftSwap x).ckey = x.ckey := by
        unfold siftSwap swapLR; split <;> simp
      have hsw_sz : (siftSwap x).size = x.size := siftSwap_size x
      have hW : witems x = witems l + titems l + owitems (siftSwap x).right := by
        rw [← hsw_w, witems_eq, hL, owitems_some]
      have hC : ncount x = 1 + ncount l + ocount (siftSwap x).right := by
        rw [← hsw_c, ncount_eq, hL, ocount_some]
      have hTl : titems l = l.items.length + otitems l.left + otitems l.right :=
        titems_eq l
      have hxck_l : x.items ≠ [] → x.ckey ≤ l.ckey := by
        intro hni
        rcases swap_left_orig x hL with h | h
        · have h2 := (hcond hni).1; rw [h] at h2; exact h2
        · have h2 := (hcond hni).2; rw [h] at h2; exact h2
      have hcwSwR : ChildWF (siftSwap x).right := by
        rcases hR : (siftSwap x).right with _ | b
        · exact ChildWF_none
        · rcases swap_right_orig x hR with h | h
          · rw [h] at hcwL; exact hcwL
          · rw [h] at hcwR; exact hcwR
      have hleSwR : ChildLe l.ckey (siftSwap x).right := by
        rcases hR : (siftSwap x).right with _ | b
        · exact ChildLe_none _
        · exact ChildLe_some (siftSwap_le x l b hL hR)
      have hbound2 : ∀ k ∈ x.items ++ l.items, k ≤ l.ckey := by
        intro k hk
        rcases List.mem_append.mp hk with hk | hk
        · have hni : x.items ≠ [] := by
            intro he; rw [he] at hk; cases hk
          exact le_trans (hbound k hk) (hxck_l hni)
        · exact hlb k hk
      by_cases hlf : leaf l
      · rw [if_pos hlf] at hstep
        obtain ⟨hlfL, hlfR⟩ := hlf
        have harith : witems (setLeft (stealLeft (siftSwap x) l) onode.none) +
            ncount (setLeft (stealLeft (siftSwap x) l) onode.none) < f := by
          have k1 : witems (setLeft (stealLeft (siftSwap x) l) onode.none) =
              owitems (siftSwap x).right := by
            rw [witems_eq]; simp
          have k2 : ncount (setLeft (stealLeft (siftSwap x) l) onode.none) =
              1 + ocount (siftSwap x).right := by
            rw [ncount_eq]; simp
          omega
        have hPre2 : SiftPre (setLeft (stealLeft (siftSwap x) l) onode.none) := by
          refine ⟨?_, ?_, ?_, ChildWF_none, ?_, ?_⟩
          · simp [hsw_ne, hsw_it, hne_pre, hlnelems]
          · simp [hsw_sz, hsz]
          · simp only [setLeft_items, stealLeft_items, setLeft_ckey,
              stealLeft_ckey, hsw_it]
            exact hbound2
          · simpa using hcwSwR
          · intro _
            simp only [setLeft_ckey, stealLeft_ckey, setLeft_left, setLeft_right,
              stealLeft_right]
            exact ⟨ChildLe_none _, hleSwR⟩
        obtain ⟨y, hy, p1, p2, p3, p4, p5, p6, p7, p8⟩ := ih _ harith hPre2
        refine ⟨y, by rw [hstep]; exact hy, p1, p2, p3, p4, p5, p6, ?_, ?_⟩
        · intro _
          apply p7
          left
          simp only [setLeft_items, stealLeft_items, hsw_it]
          intro he
          rw [List.append_eq_nil] at he
          exact hlne he.2
        · intro hleL hleR
          have hx_l : x.ckey ≤ l.ckey := by
            rcases swap_left_orig x hL with h | h
            · rw [h] at hleL; exact hleL
            · rw [h] at hleR; exact hleR
          refine le_trans hx_l ?_
          have := p8 ?_ ?_
          · simpa [hsw_ck] using this
          · simp only [setLeft_ckey, stealLeft_ckey, setLeft_left]
            exact ChildLe_none _
          · simp only [setLeft_ckey, stealLeft_ckey, setLeft_right, stealLeft_right]
            exact hleSwR
      · rw [if_neg hlf] at hstep
        have hlnleaf : ¬ leaf (emptied l) := by
          unfold leaf at hlf ⊢
          simpa using hlf
        have harith1 : witems (emptied l) + ncount (emptied l) < f := by
          have j1 : witems (emptied l) = witems l := by
            rw [witems_eq, witems_eq]; simp
          have j2 : ncount (emptied l) = ncount l := by
            rw [ncount_eq, ncount_eq]; simp
          omega
        have hPre1 : SiftPre (emptied l) := by
          refine ⟨by simp, by simp [hlsz], by simp, ?_, ?_, ?_⟩
          · rw [emptied_left]
            rcases hll : l.left with _ | c
            · exact ChildWF_none
            · rw [hll] at hlL; exact hlL.2
          · rw [emptied_right]
            rcases hlr : l.right with _ | c
            · exact ChildWF_none
            · rw [hlr] at hlR; exact hlR.2
          · intro he; simp at he
        obtain ⟨l2, hl2, q1, q2, q3, q4, q5, q6, q7, q8⟩ := ih _ harith1 hPre1
        have hl2ne : l2.items ≠ [] := by
          apply q7
          right
          refine ⟨by simp [hlsz]; omega, hlnleaf⟩
        have hl2sz : l2.size = l.size := by
          have := (siftF_size_rank _ _ _ hl2).1
          simpa using this
        have hl2WF : NodeWF l2 := by
          rw [NodeWF_iff]
          exact ⟨q1, hl2ne, q2, by rw [hl2sz]; exact hlsz,
            (OWF_iff _ _).mpr ⟨q5, q3⟩, (OWF_iff _ _).mpr ⟨q6, q4⟩⟩
        have hl_le_l2 : l.ckey ≤ l2.ckey := by
          have hCL1 : ChildLe (emptied l).ckey (emptied l).left := by
            rw [emptied_ckey, emptied_left]
            rcases hll : l.left with _ | c
            · exact ChildLe_none _
            · rw [hll] at hlL; exact ChildLe_some hlL.1
          have hCL2 : ChildLe (emptied l).ckey (emptied l).right := by
            rw [emptied_ckey, emptied_right]
            rcases hlr : l.right with _ | c
            · exact ChildLe_none _
            · rw [hlr] at hlR; exact ChildLe_some hlR.1
          have := q8 hCL1 hCL2
          simpa using this
        have harith2 : witems (setLeft (stealLeft (siftSwap x) l) (onode.some l2)) +
            ncount (setLeft (stealLeft (siftSwap x) l) (onode.some l2)) < f := by
          have k1 : witems (setLeft (stealLeft (siftSwap x) l) (onode.some l2)) =
              witems l2 + titems l2 + owitems (siftSwap x).right := by
            rw [witems_eq]; simp
          have k2 : ncount (setLeft (stealLeft (siftSwap x) l) (onode.some l2)) =
              1 + ncount l2 + ocount (siftSwap x).right := by
            rw [ncount_eq]; simp
          obtain ⟨m1, _, m3⟩ := sift_measures _ _ _ hl2
          have j1 : witems (emptied l) = witems l := by
            rw [witems_eq, witems_eq]; simp
          have j2 : ncount (emptied l) = ncount l := by
            rw [ncount_eq, ncount_eq]; simp
          have j3 : titems (emptied l) = otitems l.left + otitems l.right := by
            rw [titems_eq]; simp
          omega
        have hPre3 : SiftPre (setLeft (stealLeft (siftSwap x) l) (onode.some l2)) := by
          refine ⟨?_, ?_, ?_, ?_, ?_, ?_⟩
          · simp [hsw_ne, hsw_it, hne_pre, hlnelems]
          · simp [hsw_sz, hsz]
          · simp only [setLeft_items, stealLeft_items, setLeft_ckey,
              stealLeft_ckey, hsw_it]
            exact hbound2
          · simpa using hl2WF
          · simpa using hcwSwR
          · intro _
            simp only [setLeft_ckey, stealLeft_ckey, setLeft_left, setLeft_right,
              stealLeft_right]
            exact ⟨ChildLe_some hl_le_l2, hleSwR⟩
        obtain ⟨y, hy, p1, p2, p3, p4, p5, p6, p7, p8⟩ := ih _ harith2 hPre3
        refine ⟨y, ?_, p1, p2, p3, p4, p5, p6, ?_, ?_⟩
        · rw [hstep, hl2]
          simp only [Except.bind]
          exact hy
        · intro _
          apply p7
          left
          simp only [setLeft_items, stealLeft_items, hsw_it]
          intro he
          rw [List.append_eq_nil] at he
          exact hlne he.2
        · intro hleL hleR
          have hx_l : x.ckey ≤ l.ckey := by
            rcases swap_left_orig x hL with h | h
            · rw [h] at hleL; exact hleL
            · rw [h] at hleR; exact hleR
          refine le_trans hx_l ?_
          have := p8 ?_ ?_
          · simpa using this
          · simp only [setLeft_ckey, stealLeft_ckey, setLeft_left]
            exact ChildLe_some hl_le_l2
          · simp only [setLeft_ckey, stealLeft_ckey, setLeft_right, stealLeft_right]
            exact hleSwR
    · refine ⟨x, ?_, hbound, hne_pre, hcwL, hcwR, ?_, ?_, ?_, fun _ _ => le_refl _⟩
      · simp only [siftF]
        rw [if_neg hc]
      · by_cases hni : x.items = []
        · have : x.nelems = 0 := by rw [hne_pre, hni]; rfl
          rcases not_and_or.mp hc with h | h
          · omega
          · rw [not_not] at h
            rw [h.1]
            exact ChildLe_none _
        · exact (hcond hni).1
      · by_cases hni : x.items = []
        · have : x.nelems = 0 := by rw [hne_pre, hni]; rfl
          rcases not_and_or.mp hc with h | h
          · omega
          · rw [not_not] at h
            rw [h.2]
            exact ChildLe_none _
        · exact (hcond hni).2
      · intro hd
        rcases hd with hd | hd
        · exact hd
        · exact absurd hd hc

mutual

/-- The ckeys of all nodes in a subtree. -/
def nckeys : node → List Int
  | .mk l r _ ck _ _ _ => ck :: (onckeys l ++ onckeys r)

/-- The ckeys of all nodes under an optional child. -/
def onckeys : onode → List Int
  | .none => []
  | .some x => nckeys x

end

theorem onckeys_some (z : node) : onckeys (onode.some z) = nckeys z := rfl

theorem onckeys_none : onckeys onode.none = [] := rfl

attribute [simp] onckeys_some onckeys_none

theorem nckeys_eq (x : node) :
    nckeys x = x.ckey :: (onckeys x.left ++ onckeys x.right) := by
  cases x; rfl

/-- In a well-formed subtree the root ckey is minimal among all ckeys: the
heap order on ckeys propagates down every path. -/
theorem NodeWF_ckeys_aux : ∀ (n : Nat) (x : node), ncount x ≤ n → NodeWF x →
    ∀ c ∈ nckeys x, x.ckey ≤ c := by
  intro n
  induction n with
  | zero =>
    intro x hn
    rw [ncount_eq] at hn
    omega
  | succ n ih =>
    intro x hn hWF c hc
    rw [nckeys_eq] at hc
    rcases List.mem_cons.mp hc with rfl | hc
    · exact le_refl _
    obtain ⟨_, _, _, _, hOL, hOR⟩ := (NodeWF_iff x).mp hWF
    have hcnt := ncount_eq x
    rcases List.mem_append.mp hc with hc | hc
    · rcases hL : x.left with _ | a
      · rw [hL] at hc; cases hc
      · rw [hL] at hc hOL
        simp only [onckeys_some] at hc
        have ha : ncount a ≤ n := by
          rw [hL, ocount_some] at hcnt
          omega
        exact le_trans hOL.1 (ih a ha hOL.2 c hc)
    · rcases hR : x.right with _ | a
      · rw [hR] at hc; cases hc
      · rw [hR] at hc hOR
        simp only [onckeys_some] at hc
        have ha : ncount a ≤ n := by
          rw [hR, ocount_some] at hcnt
          omega
        exact le_trans hOR.1 (ih a ha hOR.2 c hc)

theorem NodeWF_ckeys (x : node) (hWF : NodeWF x) : ∀ c ∈ nckeys x, x.ckey ≤ c :=
  NodeWF_ckeys_aux (ncount x) x (le_refl _) hWF

/-- Correctness of the sufmin pointers of a root list segment: each tree's
sufmin offset lands on a tree of the segment starting at it whose root ckey
is minimal over that segment.  The property only concerns each tree and its
suffix, so it is preserved when trees are prepended. -/
def sufminOK : List tree → Prop
  | [] => True
  | t :: rest => sufminOK rest ∧
      ∃ tg, (t :: rest).get? t.sufmin = some tg ∧
        ∀ u ∈ t :: rest, tg.root.ckey ≤ u.root.ckey

theorem sufminOK_cons (t : tree) (rest : List tree) :
    sufminOK (t :: rest) ↔ sufminOK rest ∧
      ∃ tg, (t :: rest).get? t.sufmin = some tg ∧
        ∀ u ∈ t :: rest, tg.root.ckey ≤ u.root.ckey := Iff.rfl

/-- The one-step sufmin recomputation keeps the root and the rank. -/
theorem usmHead_root (t : tree) (suf : List tree) : (usmHead t suf).root = t.root := by
  rcases suf with _ | ⟨u, us⟩
  · rfl
  · simp only [usmHead]
    split <;> rfl

theorem usmHead_rank (t : tree) (suf : List tree) : (usmHead t suf).rank = t.rank := by
  rcases suf with _ | ⟨u, us⟩
  · rfl
  · simp only [usmHead]
    split <;> rfl

/-- update_suffix_min only rewrites sufmin pointers: any projection that
ignores sufmin maps over its result as over reversed prefix ++ suffix. -/
theorem usmRev_map {α : Type} (g : tree → α) (hg : ∀ t suf, g (usmHead t suf) = g t) :
    ∀ (pr suf : List tree),
      (usmRev pr suf).map g = pr.reverse.map g ++ suf.map g := by
  intro pr
  induction pr with
  | nil => intro suf; simp [usmRev]
  | cons t pr2 ih =>
    intro suf
    rw [usmRev, ih, List.reverse_cons]
    simp [hg]

/-- Projections of the popped node (extract_elem). -/
theorem popped_left (x : node) : (popped x).left = x.left := rfl

theorem popped_right (x : node) : (popped x).right = x.right := rfl

theorem popped_items (x : node) : (popped x).items = x.items.tail := rfl

theorem popped_ckey (x : node) : (popped x).ckey = x.ckey := rfl

theorem popped_rank (x : node) : (popped x).rank = x.rank := rfl

theorem popped_size (x : node) : (popped x).size = x.size := rfl

theorem popped_nelems (x : node) : (popped x).nelems = x.nelems - 1 := rfl

attribute [simp] popped_left popped_right popped_items popped_ckey
  popped_rank popped_size popped_nelems

/-- The multiset of all items currently in a heap. -/
def heapM (P : softheap) : Multiset Int :=
  (P.first.map (fun t => nitemsM t.root)).sum

theorem treeSum_set (l : List tree) (k : Nat) (hk : k < l.length) (t2 : tree) :
    ((l.set k t2).map (fun t => nitemsM t.root)).sum + nitemsM (l.get ⟨k, hk⟩).root =
    (l.map (fun t => nitemsM t.root)).sum + nitemsM t2.root := by
  rw [List.set_eq_take_cons_drop _ hk]
  conv_rhs => rw [← List.take_append_drop k l,
    ← List.getElem_cons_drop l k hk]
  simp only [List.map_append, List.map_cons, List.sum_append, List.sum_cons,
    List.get_eq_getElem]
  abel

theorem treeSum_erase (l : List tree) (k : Nat) (hk : k < l.length) :
    ((l.eraseIdx k).map (fun t => nitemsM t.root)).sum + nitemsM (l.get ⟨k, hk⟩).root =
    (l.map (fun t => nitemsM t.root)).sum := by
  rw [List.eraseIdx_eq_take_drop_succ]
  conv_rhs => rw [← List.take_append_drop k l,
    ← List.getElem_cons_drop l k hk]
  simp only [List.map_append, List.map_cons, List.sum_append, List.sum_cons,
    List.get_eq_getElem]
  abel

theorem usm_map_sum (l : List tree) (k : Nat) :
    ((update_suffix_min l k).map (fun t => nitemsM t.root)).sum =
    (l.map (fun t => nitemsM t.root)).sum := by
  unfold update_suffix_min
  rw [usmRev_map _ (fun t suf => by rw [usmHead_root]), List.reverse_reverse,
    ← List.map_append, List.take_append_drop]

theorem treeSum_set_pop (l : List tree) (k : Nat) (hk : k < l.length) (tg : tree)
    (hget : l.get ⟨k, hk⟩ = tg) (x2 : node) (e : Int)
    (hM : nitemsM x2 + {e} = nitemsM tg.root) (t2 : tree) (ht2 : t2.root = x2) :
    ((l.set k t2).map (fun t => nitemsM t.root)).sum + {e} =
    (l.map (fun t => nitemsM t.root)).sum := by
  have hset := treeSum_set l k hk t2
  rw [hget, ht2, ← hM] at hset
  have h3 : ((l.set k t2).map (fun t => nitemsM t.root)).sum + {e} + nitemsM x2 =
      (l.map (fun t => nitemsM t.root)).sum + nitemsM x2 := by
    rw [← hset]
    abel
  exact add_right_cancel h3

/-- C2: on a well-formed nonempty heap, extract_min_with_ckey succeeds; it
removes the head item e of the root node of the tree P.first->sufmin,
returns e together with that root's ckey, that ckey bounds e from above and
is the minimum ckey over every node of the forest, and the items of the
resulting heap are the items of P minus one copy of e.  (The returned item
is the item of minimum ckey; nothing is claimed about e being the minimum
original key.) -/
theorem extract_min_with_ckey_spec (P : softheap) (t0 : tree) (rest : List tree)
    (hfirst : P.first = t0 :: rest)
    (hWF : ∀ t ∈ P.first, NodeWF t.root)
    (hsuf : sufminOK P.first) :
    ∃ T e P2, P.first.get? t0.sufmin = some T ∧
      extract_min_with_ckey P = .ok (e, T.root.ckey, P2) ∧
      T.root.items.head? = some e ∧
      e ≤ T.root.ckey ∧
      (∀ u ∈ P.first, ∀ c ∈ nckeys u.root, T.root.ckey ≤ c) ∧
      heapM P2 + {e} = heapM P := by
  have hsuf2 := hsuf
  rw [hfirst, sufminOK_cons] at hsuf2
  obtain ⟨-, tg, htg, hmin⟩ := hsuf2
  have htgP : P.first.get? t0.sufmin = some tg := by rw [hfirst]; exact htg
  have htgmem : tg ∈ P.first := List.get?_mem htgP
  have hWFtg : NodeWF tg.root := hWF tg htgmem
  obtain ⟨hb, hne0, hnelems, hszk, hOL, hOR⟩ := (NodeWF_iff tg.root).mp hWFtg
  obtain ⟨e, tl, hitems⟩ : ∃ e tl, tg.root.items = e :: tl := by
    rcases hx : tg.root.items with _ | ⟨e, tl⟩
    · exact absurd hx hne0
    · exact ⟨e, tl, rfl⟩
  have hminAll : ∀ u ∈ P.first, ∀ c ∈ nckeys u.root, tg.root.ckey ≤ c := by
    intro u hu c hc
    have h1 : tg.root.ckey ≤ u.root.ckey := by
      apply hmin
      rw [← hfirst]
      exact hu
    exact le_trans h1 (NodeWF_ckeys u.root (hWF u hu) c hc)
  have hkidx : t0.sufmin < (t0 :: rest).length := by
    rcases List.get?_eq_some.mp htg with ⟨h, _⟩
    exact h
  have htgget : (t0 :: rest).get ⟨t0.sufmin, hkidx⟩ = tg := by
    rcases List.get?_eq_some.mp htg with ⟨h, h2⟩
    exact h2
  have hpop : nitemsM (popped tg.root) + {e} = nitemsM tg.root := by
    rw [nitemsM_eq, nitemsM_eq]
    simp only [popped_left, popped_right, popped_items, hitems, List.tail_cons]
    rw [show ((e :: tl : List Int) : Multiset Int) = {e} + (tl : Multiset Int) from by
      rw [Multiset.singleton_add]; rfl]
    abel
  have hheapP : heapM P = ((t0 :: rest).map (fun t => nitemsM t.root)).sum := by
    unfold heapM
    rw [hfirst]
  have hmain : extract_min_with_ckey P =
      (if (popped tg.root).nelems ≤ Int.tdiv (popped tg.root).size 2 then
        if ¬ leaf (popped tg.root) then
          (sift (popped tg.root) >>= fun x3 =>
            .ok (e, (popped tg.root).ckey,
              { P with first := (update_suffix_min
                  ((t0 :: rest).set t0.sufmin { tg with root := x3 }) t0.sufmin) }))
        else if (popped tg.root).nelems = 0 then
          .ok (e, (popped tg.root).ckey,
            { P with
              first := (if t0.sufmin = 0 then (t0 :: rest).eraseIdx t0.sufmin
                else update_suffix_min ((t0 :: rest).eraseIdx t0.sufmin) (t0.sufmin - 1)),
              rank := (if t0.sufmin + 1 = (t0 :: rest).length then
                  (if t0.sufmin = 0 then -1
                   else match ((t0 :: rest).eraseIdx t0.sufmin).get? (t0.sufmin - 1) with
                     | Option.some u => u.rank
                     | Option.none => P.rank)
                else P.rank) })
        else .ok (e, (popped tg.root).ckey,
          { P with first := (t0 :: rest).set t0.sufmin { tg with root := popped tg.root } })
      else .ok (e, (popped tg.root).ckey,
        { P with first := (t0 :: rest).set t0.sufmin { tg with root := popped tg.root } })) := by
    simp only [extract_min_with_ckey, hfirst, htg, hitems]
  rw [popped_ckey] at hmain
  by_cases hdef : (popped tg.root).nelems ≤ Int.tdiv (popped tg.root).size 2
  · rw [if_pos hdef] at hmain
    by_cases hlf : leaf (popped tg.root)
    · rw [if_neg (not_not.mpr hlf)] at hmain
      by_cases hzero : (popped tg.root).nelems = 0
      · rw [if_pos hzero] at hmain
        have htl : tl = [] := by
          simp only [popped_nelems, hnelems, hitems, List.length_cons] at hzero
          have h2 : (tl.length : Int) = 0 := by push_cast at hzero ⊢; omega
          exact List.eq_nil_of_length_eq_zero (by exact_mod_cast h2)
        have htgM : nitemsM tg.root = {e} := by
          rw [nitemsM_eq]
          obtain ⟨hl1, hl2⟩ := hlf
          rw [popped_left] at hl1
          rw [popped_right] at hl2
          rw [hl1, hl2, hitems, htl]
          simp
        refine ⟨tg, e, _, htgP, hmain, by rw [hitems]; rfl,
          hb e (by rw [hitems]; exact List.mem_cons_self _ _), hminAll, ?_⟩
        have herase := treeSum_erase (t0 :: rest) t0.sufmin hkidx
        rw [htgget, htgM] at herase
        rw [hheapP]
        unfold heapM
        dsimp only
        split_ifs with h0
        · exact herase
        · rw [usm_map_sum]
          exact herase
      · rw [if_neg hzero] at hmain
        refine ⟨tg, e, _, htgP, hmain, by rw [hitems]; rfl,
          hb e (by rw [hitems]; exact List.mem_cons_self _ _), hminAll, ?_⟩
        rw [hheapP]
        unfold heapM
        dsimp only
        exact treeSum_set_pop (t0 :: rest) t0.sufmin hkidx tg htgget
          (popped tg.root) e hpop _ rfl
    · rw [if_pos hlf] at hmain
      have hPre2 : SiftPre (popped tg.root) := by
        refine ⟨?_, by simp [hszk], ?_, ?_, ?_, ?_⟩
        · simp only [popped_nelems, popped_items, hnelems, hitems]
          simp
        · intro k hk
          simp only [popped_items] at hk
          simp only [popped_ckey]
          exact hb k (List.mem_of_mem_tail hk)
        · rw [popped_left]
          exact ((OWF_iff _ _).mp hOL).2
        · rw [popped_right]
          exact ((OWF_iff _ _).mp hOR).2
        · intro _
          constructor
          · rw [popped_ckey, popped_left]
            exact ((OWF_iff _ _).mp hOL).1
          · rw [popped_ckey, popped_right]
            exact ((OWF_iff _ _).mp hOR).1
      obtain ⟨x3, hx3, -⟩ :=
        sift_main (siftFuel (popped tg.root)) (popped tg.root)
          (Nat.lt_succ_self _) hPre2
      have hsift : sift (popped tg.root) = .ok x3 := hx3
      rw [hsift] at hmain
      replace hmain : extract_min_with_ckey P =
          .ok (e, tg.root.ckey,
            { P with first := (update_suffix_min
                ((t0 :: rest).set t0.sufmin { tg with root := x3 }) t0.sufmin) }) := hmain
      refine ⟨tg, e, _, htgP, hmain, by rw [hitems]; rfl,
        hb e (by rw [hitems]; exact List.mem_cons_self _ _), hminAll, ?_⟩
      have hx3M : nitemsM x3 = nitemsM (popped tg.root) := sift_itemsM _ _ _ hx3
      rw [hheapP]
      unfold heapM
      dsimp only
      rw [usm_map_sum]
      exact treeSum_set_pop (t0 :: rest) t0.sufmin hkidx tg htgget
        x3 e (by rw [hx3M]; exact hpop) _ rfl
  · rw [if_neg hdef] at hmain
    refine ⟨tg, e, _, htgP, hmain, by rw [hitems]; rfl,
      hb e (by rw [hitems]; exact List.mem_cons_self _ _), hminAll, ?_⟩
    rw [hheapP]
    unfold heapM
    dsimp only
    exact treeSum_set_pop (t0 :: rest) t0.sufmin hkidx tg htgget
      (popped tg.root) e hpop _ rfl

/-- A concrete well-formed one-element heap for exercising extraction. -/
def c2heap : softheap :=
  { first := [maketree 5], rank := 0, epsilon := mkRat 1 2, r := 4 }

theorem extract_min_with_ckey_spec_witness :
    ∃ T e P2, c2heap.first.get? ((maketree 5).sufmin) = some T ∧
      extract_min_with_ckey c2heap = .ok (e, T.root.ckey, P2) ∧
      T.root.items.head? = some e ∧
      e ≤ T.root.ckey ∧
      (∀ u ∈ c2heap.first, ∀ c ∈ nckeys u.root, T.root.ckey ≤ c) ∧
      heapM P2 + {e} = heapM c2heap :=
  extract_min_with_ckey_spec c2heap (maketree 5) [] rfl
    (by
      intro t ht
      simp only [c2heap, List.mem_singleton] at ht
      subst ht
      rw [NodeWF_iff]
      refine ⟨by simp [maketree, makenode], by simp [maketree, makenode],
        by simp [maketree, makenode], by simp [maketree, makenode], ?_, ?_⟩
      · show OWF (maketree 5).root.ckey onode.none
        exact trivial
      · show OWF (maketree 5).root.ckey onode.none
        exact trivial)
    (by
      show sufminOK [maketree 5]
      rw [sufminOK_cons]
      refine ⟨trivial, maketree 5, rfl, ?_⟩
      intro u hu
      simp only [List.mem_singleton] at hu
      subst hu
      exact le_refl _)

/-- Well-formedness of a tree of the root list: its root node is
well-formed and the cached rank agrees with the root rank. -/
def TreeWF (t : tree) : Prop := NodeWF t.root ∧ t.rank = t.root.rank

/-- Strictly increasing ranks along a root list. -/
def ranksSorted (l : List tree) : Prop :=
  List.Pairwise (fun a b => a < b) (l.map tree.rank)

/-- The heap rank field bounds the rank of every tree of the root list. -/
def rankBound (P : softheap) : Prop := ∀ t ∈ P.first, t.rank ≤ P.rank

/-- The structural well-formedness of a soft heap (everything except the
suffix-min pointers, which sufminOK states separately). -/
def WF0 (P : softheap) : Prop :=
  (∀ t ∈ P.first, TreeWF t) ∧ ranksSorted P.first ∧ rankBound P ∧
  0 < P.epsilon ∧ P.epsilon < 1

/-- The heaps constructible by the public operations of softheap.c. -/
inductive reachable : softheap → Prop where
  | mk_empty (eps : ℚ) (P : softheap) : makeheap_empty eps = .ok P → reachable P
  | mk (el : Int) (eps : ℚ) (P : softheap) : makeheap el eps = .ok P → reachable P
  | ins (P : softheap) (el : Int) (Q : softheap) :
      reachable P → insert P el = .ok Q → reachable Q
  | mld (P Q R : softheap) :
      reachable P → reachable Q → meld P Q = .ok R → reachable R
  | ext (P : softheap) (e c : Int) (Q : softheap) :
      reachable P → extract_min_with_ckey P = .ok (e, c, Q) → reachable Q

theorem NodeWF_makenode (el : Int) : NodeWF (makenode el) := by
  rw [NodeWF_iff]
  refine ⟨?_, by simp [makenode], by simp [makenode], by simp [makenode], ?_, ?_⟩
  · intro k hk
    simp only [makenode, node_items_mk] at hk
    simp only [makenode, node_ckey_mk]
    simp at hk
    omega
  · exact trivial
  · exact trivial

theorem TreeWF_maketree (el : Int) : TreeWF (maketree el) :=
  ⟨NodeWF_makenode el, rfl⟩

theorem sufminOK_singleton (t : tree) (h : t.sufmin = 0) : sufminOK [t] := by
  rw [sufminOK_cons]
  refine ⟨trivial, t, by rw [h]; rfl, ?_⟩
  intro u hu
  simp only [List.mem_singleton] at hu
  subst hu
  exact le_refl _

/-- sufminOK only depends on the root ckey and the sufmin offset of each
tree of the list. -/
theorem sufminOK_of_proj_eq : ∀ (l1 l2 : List tree),
    l1.map (fun t => (t.root.ckey, t.sufmin)) = l2.map (fun t => (t.root.ckey, t.sufmin)) →
    sufminOK l1 → sufminOK l2 := by
  intro l1
  induction l1 with
  | nil =>
    intro l2 h _
    rcases l2 with _ | ⟨u, us⟩
    · exact trivial
    · simp at h
  | cons t rest ih =>
    intro l2 h hs
    rcases l2 with _ | ⟨u, us⟩
    · simp at h
    · simp only [List.map_cons, List.cons.injEq] at h
      obtain ⟨hhead, htail⟩ := h
      rw [sufminOK_cons] at hs ⊢
      obtain ⟨hs1, tg, htg, hmin⟩ := hs
      refine ⟨ih us htail hs1, ?_⟩
      have hsmin : t.sufmin = u.sufmin := by
        have := congrArg Prod.snd hhead
        simpa using this
      have hmapeq : ((t :: rest).map (fun t => (t.root.ckey, t.sufmin))).get? t.sufmin =
          ((u :: us).map (fun t => (t.root.ckey, t.sufmin))).get? u.sufmin := by
        rw [List.map_cons, List.map_cons, hhead, htail, hsmin]
      rw [List.get?_map, List.get?_map, htg] at hmapeq
      rcases hu2 : (u :: us).get? u.sufmin with _ | tg2
      · rw [hu2] at hmapeq
        exact absurd hmapeq (by simp)
      · rw [hu2] at hmapeq
        simp only [Option.map_some', Option.some.injEq] at hmapeq
        refine ⟨tg2, rfl, ?_⟩
        intro w hw
        have hproj : (w.root.ckey, w.sufmin) ∈
            ((t :: rest).map (fun t => (t.root.ckey, t.sufmin))) := by
          rw [List.map_cons, hhead, htail]
          rcases List.mem_cons.mp hw with rfl | hw2
          · exact List.mem_cons_self _ _
          · exact List.mem_cons_of_mem _ (List.mem_map_of_mem _ hw2)
        obtain ⟨w1, hw1, hweq⟩ := List.mem_map.mp hproj
        have hckey : tg.root.ckey ≤ w.root.ckey := by
          have := hmin w1 hw1
          have hc := congrArg Prod.fst hweq
          simp only at hc
          rw [← hc]
          exact this
        have htgck : tg.root.ckey = tg2.root.ckey := by
          have := congrArg Prod.fst hmapeq
          simpa using this
        rw [← htgck]
        exact hckey

/-- sufminOK restricts to any suffix of the root list. -/
theorem sufminOK_suffix : ∀ (p l : List tree), sufminOK (p ++ l) → sufminOK l := by
  intro p
  induction p with
  | nil => intro l h; exact h
  | cons t p2 ih =>
    intro l h
    rw [List.cons_append, sufminOK_cons] at h
    exact ih l h.1

theorem sufminOK_isSuffix (S l : List tree) (h : S.IsSuffix l) (hs : sufminOK l) :
    sufminOK S := by
  obtain ⟨p, hp⟩ := h
  rw [← hp] at hs
  exact sufminOK_suffix p S hs

/-- The suffix-min recomputation of update_suffix_min restores sufminOK on
the processed prefix, provided the untouched suffix already satisfies it. -/
theorem usmRev_sufminOK : ∀ (pr suf : List tree), sufminOK suf →
    sufminOK (usmRev pr suf) := by
  intro pr
  induction pr with
  | nil => intro suf h; exact h
  | cons t pr2 ih =>
    intro suf h
    rw [usmRev]
    apply ih
    rw [sufminOK_cons]
    refine ⟨h, ?_⟩
    rcases suf with _ | ⟨u, us⟩
    · refine ⟨usmHead t [], by rw [usmHead]; rfl, ?_⟩
      intro w hw
      simp only [List.mem_singleton] at hw
      subst hw
      exact le_refl _
    · rw [sufminOK_cons] at h
      obtain ⟨h1, tg, htg, hmin⟩ := h
      have htarget : sufTargetCkey (u :: us) = tg.root.ckey := by
        rw [sufTargetCkey, htg]
      rw [usmHead]
      split_ifs with hck
      · refine ⟨{ t with sufmin := 0 }, rfl, ?_⟩
        intro w hw
        rcases List.mem_cons.mp hw with rfl | hw
        · exact le_refl _
        · rw [htarget] at hck
          exact le_trans hck (hmin w hw)
      · refine ⟨tg, ?_, ?_⟩
        · show ({ t with sufmin := u.sufmin + 1 } ::
            u :: us).get? (u.sufmin + 1) = some tg
          rw [List.get?_cons_succ]
          exact htg
        · intro w hw
          rcases List.mem_cons.mp hw with rfl | hw
          · rw [htarget] at hck
            show tg.root.ckey ≤ t.root.ckey
            omega
          · exact hmin w hw

/-- Number of trees of a given rank in a root-list segment. -/
def countRank (l : List tree) (v : Int) : Nat := (l.map tree.rank).count v

theorem countRank_nil (v : Int) : countRank [] v = 0 := rfl

theorem countRank_cons (t : tree) (l : List tree) (v : Int) :
    countRank (t :: l) v = countRank l v + (if t.rank = v then 1 else 0) := by
  rw [countRank, List.map_cons, List.count_cons, countRank]
  simp [beq_iff_eq]

theorem countRank_eq_zero (l : List tree) (v : Int) (h : ∀ t ∈ l, t.rank ≠ v) :
    countRank l v = 0 := by
  rw [countRank, List.count_eq_zero]
  intro hmem
  obtain ⟨u, hu, hueq⟩ := List.mem_map.mp hmem
  exact h u hu hueq

/-- A strictly rank-sorted segment holds at most one tree of each rank. -/
theorem countRank_le_one (l : List tree) (v : Int)
    (h : List.Pairwise (fun a b => a.rank < b.rank) l) : countRank l v ≤ 1 := by
  induction l with
  | nil => simp [countRank_nil]
  | cons t rest ih =>
    rw [countRank_cons]
    rcases List.pairwise_cons.mp h with ⟨hhd, htl⟩
    split_ifs with hv
    · have h0 : countRank rest v = 0 := by
        apply countRank_eq_zero
        intro u hu
        have := hhd u hu
        omega
      omega
    · have := ih htl
      omega

theorem ranksSorted_iff (l : List tree) :
    ranksSorted l ↔ List.Pairwise (fun a b => a.rank < b.rank) l := by
  rw [ranksSorted]
  exact List.pairwise_map

/-- Trees of the merged root list come from one of the two inputs. -/
theorem mergeIntoF_mem : ∀ (f : Nat) (pl ql M : List tree),
    mergeIntoF f pl ql = .ok M → ∀ t ∈ M, t ∈ pl ∨ t ∈ ql := by
  intro f
  induction f with
  | zero => intro pl ql M h; simp [mergeIntoF] at h
  | succ f ih =>
    intro pl ql M h t ht
    rcases pl with _ | ⟨p, ps⟩
    · simp only [mergeIntoF, Except.ok.injEq] at h
      subst h
      exact Or.inr ht
    · rcases ql with _ | ⟨q, qs⟩
      · simp [mergeIntoF] at h
      · simp only [mergeIntoF] at h
        split_ifs at h with hlt
        · rcases h2 : mergeIntoF f (p :: ps) qs with e | M2
          · rw [h2] at h; simp [Except.map] at h
          · rw [h2] at h
            simp only [Except.map, Except.ok.injEq] at h
            subst h
            rcases List.mem_cons.mp ht with rfl | ht2
            · exact Or.inr (List.mem_cons_self _ _)
            · rcases ih (p :: ps) qs M2 h2 t ht2 with hp | hq
              · exact Or.inl hp
              · exact Or.inr (List.mem_cons_of_mem _ hq)
        · rcases h2 : mergeIntoF f ps (q :: qs) with e | M2
          · rw [h2] at h; simp [Except.map] at h
          · rw [h2] at h
            simp only [Except.map, Except.ok.injEq] at h
            subst h
            rcases List.mem_cons.mp ht with rfl | ht2
            · exact Or.inl (List.mem_cons_self _ _)
            · rcases ih ps (q :: qs) M2 h2 t ht2 with hp | hq
              · exact Or.inl (List.mem_cons_of_mem _ hp)
              · exact Or.inr hq

/-- The merge is an interleaving: rank counts add up. -/
theorem mergeIntoF_count : ∀ (f : Nat) (pl ql M : List tree),
    mergeIntoF f pl ql = .ok M →
    ∀ v, countRank M v = countRank pl v + countRank ql v := by
  intro f
  induction f with
  | zero => intro pl ql M h; simp [mergeIntoF] at h
  | succ f ih =>
    intro pl ql M h v
    rcases pl with _ | ⟨p, ps⟩
    · simp only [mergeIntoF, Except.ok.injEq] at h
      subst h
      rw [countRank_nil]
      omega
    · rcases ql with _ | ⟨q, qs⟩
      · simp [mergeIntoF] at h
      · simp only [mergeIntoF] at h
        split_ifs at h with hlt
        · rcases h2 : mergeIntoF f (p :: ps) qs with e | M2
          · rw [h2] at h; simp [Except.map] at h
          · rw [h2] at h
            simp only [Except.map, Except.ok.injEq] at h
            subst h
            have := ih (p :: ps) qs M2 h2 v
            rw [countRank_cons, countRank_cons q qs]
            omega
        · rcases h2 : mergeIntoF f ps (q :: qs) with e | M2
          · rw [h2] at h; simp [Except.map] at h
          · rw [h2] at h
            simp only [Except.map, Except.ok.injEq] at h
            subst h
            have := ih ps (q :: qs) M2 h2 v
            rw [countRank_cons, countRank_cons p ps]
            omega

/-- When the destination list is nonempty, the merge ends with the same last
tree as the destination. -/
theorem mergeIntoF_getLast : ∀ (f : Nat) (pl ql M : List tree),
    mergeIntoF f pl ql = .ok M → ql ≠ [] → M.getLast? = ql.getLast? := by
  intro f
  induction f with
  | zero => intro pl ql M h; simp [mergeIntoF] at h
  | succ f ih =>
    intro pl ql M h hne
    rcases pl with _ | ⟨p, ps⟩
    · simp only [mergeIntoF, Except.ok.injEq] at h
      subst h
      rfl
    · rcases ql with _ | ⟨q, qs⟩
      · simp [mergeIntoF] at h
      · simp only [mergeIntoF] at h
        split_ifs at h with hlt
        · rcases h2 : mergeIntoF f (p :: ps) qs with e | M2
          · rw [h2] at h; simp [Except.map] at h
          · rw [h2] at h
            simp only [Except.map, Except.ok.injEq] at h
            subst h
            rcases qs with _ | ⟨q2, qs2⟩
            · exact absurd h2 (by cases f <;> simp [mergeIntoF])
            · have hlast := ih (p :: ps) (q2 :: qs2) M2 h2 (by simp)
              have hM2ne : M2 ≠ [] := by
                intro hnil
                rw [hnil] at hlast
                simp [List.getLast?] at hlast
              rcases M2 with _ | ⟨m, ms⟩
              · exact absurd rfl hM2ne
              · rw [List.getLast?_cons_cons, hlast, List.getLast?_cons_cons]
        · rcases h2 : mergeIntoF f ps (q :: qs) with e | M2
          · rw [h2] at h; simp [Except.map] at h
          · rw [h2] at h
            simp only [Except.map, Except.ok.injEq] at h
            subst h
            have hlast := ih ps (q :: qs) M2 h2 (by simp)
            have hM2ne : M2 ≠ [] := by
              intro hnil
              rw [hnil] at hlast
              simp [List.getLast?] at hlast
            rcases M2 with _ | ⟨m, ms⟩
            · exact absurd rfl hM2ne
            · rw [List.getLast?_cons_cons, hlast]

/-- Merging two rank-nondecreasing root lists yields a rank-nondecreasing
root list. -/
theorem mergeIntoF_sorted : ∀ (f : Nat) (pl ql M : List tree),
    mergeIntoF f pl ql = .ok M →
    List.Pairwise (fun a b => a.rank ≤ b.rank) pl →
    List.Pairwise (fun a b => a.rank ≤ b.rank) ql →
    List.Pairwise (fun a b => a.rank ≤ b.rank) M := by
  intro f
  induction f with
  | zero => intro pl ql M h; simp [mergeIntoF] at h
  | succ f ih =>
    intro pl ql M h hp hq
    rcases pl with _ | ⟨p, ps⟩
    · simp only [mergeIntoF, Except.ok.injEq] at h
      subst h
      exact hq
    · rcases ql with _ | ⟨q, qs⟩
      · simp [mergeIntoF] at h
      · simp only [mergeIntoF] at h
        rcases List.pairwise_cons.mp hp with ⟨hp1, hp2⟩
        rcases List.pairwise_cons.mp hq with ⟨hq1, hq2⟩
        split_ifs at h with hlt
        · rcases h2 : mergeIntoF f (p :: ps) qs with e | M2
          · rw [h2] at h; simp [Except.map] at h
          · rw [h2] at h
            simp only [Except.map, Except.ok.injEq] at h
            subst h
            rw [List.pairwise_cons]
            refine ⟨?_, ih (p :: ps) qs M2 h2 hp hq2⟩
            intro u hu
            rcases mergeIntoF_mem f (p :: ps) qs M2 h2 u hu with hup | huq
            · rcases List.mem_cons.mp hup with rfl | hup2
              · omega
              · have := hp1 u hup2
                omega
            · exact hq1 u huq
        · rcases h2 : mergeIntoF f ps (q :: qs) with e | M2
          · rw [h2] at h; simp [Except.map] at h
          · rw [h2] at h
            simp only [Except.map, Except.ok.injEq] at h
            subst h
            rw [List.pairwise_cons]
            refine ⟨?_, ih ps (q :: qs) M2 h2 hp2 hq⟩
            intro u hu
            rcases mergeIntoF_mem f ps (q :: qs) M2 h2 u hu with hup | huq
            · exact hp1 u hup
            · rcases List.mem_cons.mp huq with rfl | huq2
              · omega
              · have := hq1 u huq2
                omega

/-- A suffix of the merged list whose trees all outrank every source tree is
a suffix of the destination list (its sufmin offsets are untouched). -/
theorem mergeIntoF_suffix : ∀ (f : Nat) (pl ql M : List tree),
    mergeIntoF f pl ql = .ok M →
    ∀ S, List.IsSuffix S M → (∀ t ∈ S, ∀ p ∈ pl, p.rank < t.rank) →
    List.IsSuffix S ql := by
  intro f
  induction f with
  | zero => intro pl ql M h; simp [mergeIntoF] at h
  | succ f ih =>
    intro pl ql M h S hS hout
    rcases pl with _ | ⟨p, ps⟩
    · simp only [mergeIntoF, Except.ok.injEq] at h
      subst h
      exact hS
    · rcases ql with _ | ⟨q, qs⟩
      · simp [mergeIntoF] at h
      · simp only [mergeIntoF] at h
        split_ifs at h with hlt
        · rcases h2 : mergeIntoF f (p :: ps) qs with e | M2
          · rw [h2] at h; simp [Except.map] at h
          · rw [h2] at h
            simp only [Except.map, Except.ok.injEq] at h
            subst h
            rcases List.suffix_cons_iff.mp hS with rfl | hS2
            · have := hout q (List.mem_cons_self _ _) p (List.mem_cons_self _ _)
              omega
            · exact (ih (p :: ps) qs M2 h2 S hS2 hout).trans (List.suffix_cons q qs)
        · rcases h2 : mergeIntoF f ps (q :: qs) with e | M2
          · rw [h2] at h; simp [Except.map] at h
          · rw [h2] at h
            simp only [Except.map, Except.ok.injEq] at h
            subst h
            rcases List.suffix_cons_iff.mp hS with rfl | hS2
            · have := hout p (List.mem_cons_self _ _) p (List.mem_cons_self _ _)
              omega
            · exact ih ps (q :: qs) M2 h2 S hS2 (by
                intro t ht p2 hp2
                exact hout t ht p2 (List.mem_cons_of_mem _ hp2))

theorem set_get_self {α : Type} : ∀ (l : List α) (k : Nat) (a : α),
    l.get? k = some a → l.set k a = l := by
  intro l
  induction l with
  | nil => intro k a h; cases k <;> simp at h
  | cons t rest ih =>
    intro k a h
    cases k with
    | zero =>
      simp only [List.get?_cons_zero, Option.some.injEq] at h
      show a :: rest = t :: rest
      rw [h]
    | succ k2 =>
      rw [List.get?_cons_succ] at h
      show t :: rest.set k2 a = t :: rest
      rw [ih k2 a h]

/-- Setting an index to an element with the same projection leaves the
projected list unchanged. -/
theorem map_proj_set {α : Type} (l : List tree) (k : Nat) (t2 : tree) (g : tree → α)
    (h : (l.map g).get? k = some (g t2)) : (l.set k t2).map g = l.map g := by
  rw [List.map_set]
  exact set_get_self _ _ _ h

/-- update_suffix_min only rewrites sufmin fields: any sufmin-ignoring
projection maps over its result as over the original list. -/
theorem usm_proj {α : Type} (g : tree → α) (hg : ∀ t suf, g (usmHead t suf) = g t)
    (l : List tree) (k : Nat) :
    (update_suffix_min l k).map g = l.map g := by
  rw [update_suffix_min, usmRev_map g hg, List.reverse_reverse, ← List.map_append,
    List.take_append_drop]

/-- Every tree of a recomputed root list shares root and rank with a tree of
the processed prefix or of the untouched suffix. -/
theorem usmRev_mem : ∀ (pr suf : List tree), ∀ u ∈ usmRev pr suf,
    ∃ w, (w ∈ pr ∨ w ∈ suf) ∧ u.root = w.root ∧ u.rank = w.rank := by
  intro pr
  induction pr with
  | nil =>
    intro suf u hu
    exact ⟨u, Or.inr hu, rfl, rfl⟩
  | cons t pr2 ih =>
    intro suf u hu
    rw [usmRev] at hu
    obtain ⟨w, hw, hroot, hrank⟩ := ih (usmHead t suf :: suf) u hu
    rcases hw with hw | hw
    · exact ⟨w, Or.inl (List.mem_cons_of_mem _ hw), hroot, hrank⟩
    · rcases List.mem_cons.mp hw with rfl | hw2
      · exact ⟨t, Or.inl (List.mem_cons_self _ _), by rw [hroot, usmHead_root],
          by rw [hrank, usmHead_rank]⟩
      · exact ⟨w, Or.inr hw2, hroot, hrank⟩

/-- The tree at the last position of a strictly rank-sorted root list has the
maximal rank. -/
theorem sorted_get_bound (l : List tree)
    (h : List.Pairwise (fun a b => a.rank < b.rank) l)
    (i : Nat) (u : tree) (hu : l.get? i = some u) (hi : l.length = i + 1) :
    ∀ t ∈ l, t.rank ≤ u.rank := by
  intro t ht
  obtain ⟨⟨j, hj⟩, rfl⟩ := List.mem_iff_get.mp ht
  have hilen : i < l.length := by omega
  have hui : l.get ⟨i, hilen⟩ = u := by
    rw [List.get?_eq_get hilen, Option.some.injEq] at hu
    exact hu
  rcases Nat.lt_or_ge j i with hlt | hge
  · have hR := List.pairwise_iff_get.mp h ⟨j, hj⟩ ⟨i, hilen⟩ hlt
    rw [hui] at hR
    omega
  · have hji : j = i := by omega
    subst hji
    rw [hui]

/-- A rank-nondecreasing segment whose ranks all exceed sr and occur at most
once is strictly increasing. -/
theorem pairwise_lt_of_counts (sr : Int) : ∀ (l : List tree),
    List.Pairwise (fun a b => a.rank ≤ b.rank) l →
    (∀ v, sr < v → countRank l v ≤ 1) →
    (∀ t ∈ l, sr < t.rank) →
    List.Pairwise (fun a b => a.rank < b.rank) l := by
  intro l
  induction l with
  | nil => intro _ _ _; exact List.Pairwise.nil
  | cons t rest ih =>
    intro hle hcnt hgt
    rcases List.pairwise_cons.mp hle with ⟨hhd, htl⟩
    rw [List.pairwise_cons]
    constructor
    · intro u hu
      have h1 := hhd u hu
      rcases lt_or_eq_of_le h1 with h2 | h2
      · exact h2
      · exfalso
        have hpos : 1 ≤ countRank rest t.rank := by
          rw [countRank]
          apply List.count_pos_iff.mpr
          rw [h2]
          exact List.mem_map_of_mem _ hu
        have hc := hcnt t.rank (hgt t (List.mem_cons_self _ _))
        rw [countRank_cons, if_pos rfl] at hc
        omega
    · refine ih htl ?_ ?_
      · intro v hv
        have := hcnt v hv
        rw [countRank_cons] at this
        split_ifs at this <;> omega
      · intro u hu
        exact hgt u (List.mem_cons_of_mem _ hu)

theorem get_next_size_pos (rank prevsize r : Int) (h : 1 ≤ prevsize) :
    1 ≤ get_next_size rank prevsize r := by
  rw [get_next_size]
  split_ifs with hr
  · omega
  · rw [Int.tdiv_eq_ediv (by omega) (by omega)]
    omega

theorem tdiv_two_lt (s : Int) (h : 1 ≤ s) : Int.tdiv s 2 < s := by
  rw [Int.tdiv_eq_ediv (by omega) (by omega)]
  omega

/-- combine on two well-formed nodes succeeds and yields a well-formed node
of the next rank. -/
theorem combine_WF (x y : node) (r : Int) (hx : NodeWF x) (hy : NodeWF y) :
    ∃ z, combine x y r = .ok z ∧ NodeWF z ∧ z.rank = x.rank + 1 := by
  have hxsz : 1 ≤ x.size := ((NodeWF_iff x).mp hx).2.2.2.1
  have hgns := get_next_size_pos (x.rank + 1) x.size r hxsz
  set x0 : node := node.mk (onode.some x) (onode.some y) [] 0 (x.rank + 1)
    (get_next_size (x.rank + 1) x.size r) 0 with hx0def
  have hPre : SiftPre x0 := by
    refine ⟨by simp [hx0def], by simpa [hx0def] using hgns, by simp [hx0def], hx, hy, ?_⟩
    intro hne
    exact absurd rfl hne
  obtain ⟨z, hz, hb, hne2, hcwL, hcwR, hleL, hleR, hnonempty, _⟩ :=
    sift_main (siftFuel x0) x0 (by rw [siftFuel]; omega) hPre
  have hsr := siftF_size_rank _ _ _ hz
  refine ⟨z, ?_, ?_, ?_⟩
  · rw [combine, sift]
    exact hz
  · rw [NodeWF_iff]
    refine ⟨hb, ?_, hne2, ?_, (OWF_iff _ _).mpr ⟨hleL, hcwL⟩,
      (OWF_iff _ _).mpr ⟨hleR, hcwR⟩⟩
    · apply hnonempty
      right
      constructor
      · rw [hx0def]
        simp only [node_nelems_mk, node_size_mk]
        omega
      · rw [hx0def]
        simp [leaf]
    · rw [hsr.1, hx0def]
      simp only [node_size_mk]
      omega
  · rw [hsr.2, hx0def]
    simp

/-- The three-way rank test of repeated_combine: whether the tree after next
exists and carries the same rank as curr. -/
def threeTest (v : Int) : List tree → Bool
  | n2 :: _ => v == n2.rank
  | [] => false

/-- The loop invariant of repeated_combine, proved through the fueled loop:
from a state whose remaining segment is rank-nondecreasing with every rank at
most twice and ranks above smaller_rank at most once after the head, and
whose processed prefix is strictly decreasing (as stored, most recent first),
bounded by the head rank, and only touching the head rank in the
carry-pending state, the loop succeeds and leaves a strictly rank-sorted
root list whose untouched suffix consists of trees outranking smaller_rank
taken unchanged from the input segment. -/
theorem rcF_main : ∀ (fuel : Nat) (r sr : Int) (preRev : List tree) (curr : tree)
    (tl : List tree),
    (curr :: tl).length < fuel →
    (∀ t ∈ preRev, TreeWF t) →
    (∀ t ∈ curr :: tl, TreeWF t) →
    List.Pairwise (fun a b => a.rank ≤ b.rank) (curr :: tl) →
    (∀ v, countRank tl v ≤ 2) →
    (∀ v, sr < v → countRank tl v ≤ 1) →
    List.Pairwise (fun a b => b.rank < a.rank) preRev →
    (∀ t ∈ preRev, t.rank ≤ curr.rank) →
    ((∃ t ∈ preRev, t.rank = curr.rank) →
      ∃ h2 rest2, tl = h2 :: rest2 ∧ h2.rank = curr.rank ∧
        countRank rest2 curr.rank = 0) →
    ∃ preRev2 curr2 tl2,
      rcF r sr fuel preRev (curr :: tl) = .ok (preRev2, curr2, tl2) ∧
      (∀ t ∈ preRev2, TreeWF t) ∧ TreeWF curr2 ∧ (∀ t ∈ tl2, TreeWF t) ∧
      List.Pairwise (fun a b => a.rank < b.rank)
        (preRev2.reverse ++ curr2 :: tl2) ∧
      List.IsSuffix tl2 tl ∧
      (∀ t ∈ tl2, sr < t.rank) ∧
      (∀ t ∈ curr :: tl, (∃ u ∈ tl2, t.rank ≤ u.rank) ∨ t.rank ≤ curr2.rank) := by
  intro fuel
  induction fuel with
  | zero =>
    intro r sr preRev curr tl hf
    exact absurd hf (Nat.not_lt_zero _)
  | succ f ih =>
    intro r sr preRev curr tl hf hWFpre hWFall hpw hcnt2 hcnt1 hp1 hp2 hp3
    rcases tl with _ | ⟨next, rest⟩
    · refine ⟨preRev, curr, [], rfl, hWFpre,
        hWFall curr (List.mem_cons_self _ _), by simp, ?_,
        List.nil_suffix, by simp, ?_⟩
      · rw [List.pairwise_append]
        refine ⟨List.pairwise_reverse.mpr hp1, by simp, ?_⟩
        intro a ha b hb
        rw [List.mem_reverse] at ha
        rcases List.mem_cons.mp hb with rfl | hb2
        · rcases lt_or_eq_of_le (hp2 a ha) with h | h
          · exact h
          · obtain ⟨h2, rest2, habs, _⟩ := hp3 ⟨a, ha, h⟩
            simp at habs
        · exact absurd hb2 (List.not_mem_nil _)
      · intro t ht
        rcases List.mem_cons.mp ht with rfl | h
        · exact Or.inr (le_refl _)
        · exact absurd h (List.not_mem_nil _)
    · have hstep : rcF r sr (f+1) preRev (curr :: next :: rest) =
          (if ¬ (curr.rank == next.rank) then
            if curr.rank > sr then .ok (preRev, curr, next :: rest)
            else rcF r sr f (curr :: preRev) (next :: rest)
          else if (curr.rank == next.rank) && threeTest curr.rank rest then
            rcF r sr f (curr :: preRev) (next :: rest)
          else
            (combine curr.root next.root r).bind (fun z =>
              rcF r sr f preRev ({ curr with root := z, rank := z.rank }
                :: rest))) := rfl
      have hWFcurr : TreeWF curr := hWFall curr (List.mem_cons_self _ _)
      have hWFnext : TreeWF next :=
        hWFall next (List.mem_cons_of_mem _ (List.mem_cons_self _ _))
      rcases List.pairwise_cons.mp hpw with ⟨hcurrle, hpwtl⟩
      rcases List.pairwise_cons.mp hpwtl with ⟨hnextle, hpwrest⟩
      have hcurrnext : curr.rank ≤ next.rank :=
        hcurrle next (List.mem_cons_self _ _)
      have hprelt : curr.rank ≠ next.rank → ∀ t ∈ preRev, t.rank < curr.rank := by
        intro hne t ht
        rcases lt_or_eq_of_le (hp2 t ht) with h | h
        · exact h
        · obtain ⟨h2, rest2, heq, hrk, _⟩ := hp3 ⟨t, ht, h⟩
          rw [List.cons.injEq] at heq
          rw [← heq.1] at hrk
          exact absurd hrk.symm hne
      by_cases htwo : curr.rank = next.rank
      · have hA : ¬ ¬ ((curr.rank == next.rank) = true) := by simp [htwo]
        rw [if_neg hA] at hstep
        rcases rest with _ | ⟨n2, rest2⟩
        · have hC : ¬ (((curr.rank == next.rank) &&
              threeTest curr.rank []) = true) := by
            simp [threeTest]
          rw [if_neg hC] at hstep
          obtain ⟨z, hcz, hzWF, hzrank⟩ :=
            combine_WF curr.root next.root r hWFcurr.1 hWFnext.1
          rw [hcz] at hstep
          simp only [Except.bind] at hstep
          have hzrank2 : z.rank = curr.rank + 1 := by
            rw [hzrank, hWFcurr.2]
          obtain ⟨preRev2, curr2, tl2, hok, hcWFpre, hcWFc, hcWFt, hcpw,
              hcsuf, hcgt, hcmax⟩ :=
            ih r sr preRev { curr with root := z, rank := z.rank } []
              (by simp only [List.length_cons] at hf ⊢; omega)
              hWFpre
              (by
                intro t ht
                rcases List.mem_cons.mp ht with rfl | ht2
                · exact ⟨hzWF, rfl⟩
                · exact absurd ht2 (List.not_mem_nil _))
              (by
                rw [List.pairwise_cons]
                exact ⟨fun u hu => absurd hu (List.not_mem_nil _),
                  List.Pairwise.nil⟩)
              (by intro v; rw [countRank_nil]; omega)
              (by intro v hv; rw [countRank_nil]; omega)
              hp1
              (by
                intro t ht
                have := hp2 t ht
                show t.rank ≤ z.rank
                omega)
              (by
                rintro ⟨t, ht, heq⟩
                have h1 := hp2 t ht
                have : t.rank = z.rank := heq
                omega)
          refine ⟨preRev2, curr2, tl2, by rw [hstep]; exact hok, hcWFpre,
            hcWFc, hcWFt, hcpw, ?_, hcgt, ?_⟩
          · exact hcsuf.trans (List.suffix_cons next [])
          · intro t ht
            have hmaxz := hcmax { curr with root := z, rank := z.rank }
              (List.mem_cons_self _ _)
            have hble : ∀ w : tree, w.rank ≤ z.rank →
                (∃ u ∈ tl2, w.rank ≤ u.rank) ∨ w.rank ≤ curr2.rank := by
              intro w hw
              rcases hmaxz with ⟨u, hu, hle⟩ | hle
              · exact Or.inl ⟨u, hu, le_trans hw hle⟩
              · exact Or.inr (le_trans hw hle)
            rcases List.mem_cons.mp ht with rfl | ht2
            · exact hble t (by omega)
            rcases List.mem_cons.mp ht2 with rfl | ht3
            · exact hble t (by omega)
            · exact absurd ht3 (List.not_mem_nil _)
        · by_cases hthree : curr.rank = n2.rank
          · have hC : ((curr.rank == next.rank) &&
                threeTest curr.rank (n2 :: rest2)) = true := by
              simp only [threeTest, Bool.and_eq_true, beq_iff_eq]
              exact ⟨htwo, hthree⟩
            rw [if_pos hC] at hstep
            have hn2le := hnextle n2 (List.mem_cons_self _ _)
            have hprelt2 : ∀ t ∈ preRev, t.rank < curr.rank := by
              intro t ht
              rcases lt_or_eq_of_le (hp2 t ht) with h | h
              · exact h
              · obtain ⟨h2, rest2x, heq, hrk, hcz⟩ := hp3 ⟨t, ht, h⟩
                rw [List.cons.injEq] at heq
                rw [← heq.2] at hcz
                rw [countRank_cons, if_pos hthree.symm] at hcz
                omega
            obtain ⟨preRev2, curr2, tl2, hok, hcWFpre, hcWFc, hcWFt, hcpw,
                hcsuf, hcgt, hcmax⟩ :=
              ih r sr (curr :: preRev) next (n2 :: rest2)
                (by simp only [List.length_cons] at hf ⊢; omega)
                (by
                  intro t ht
                  rcases List.mem_cons.mp ht with rfl | ht2
                  · exact hWFcurr
                  · exact hWFpre t ht2)
                (fun t ht => hWFall t (List.mem_cons_of_mem _ ht))
                hpwtl
                (by
                  intro v
                  have := hcnt2 v
                  rw [countRank_cons] at this
                  split_ifs at this <;> omega)
                (by
                  intro v hv
                  have := hcnt1 v hv
                  rw [countRank_cons] at this
                  split_ifs at this <;> omega)
                (List.pairwise_cons.mpr ⟨hprelt2, hp1⟩)
                (by
                  intro t ht
                  rcases List.mem_cons.mp ht with rfl | ht2
                  · exact hcurrnext
                  · exact le_trans (le_of_lt (hprelt2 t ht2)) hcurrnext)
                (by
                  rintro ⟨t, ht, heq⟩
                  refine ⟨n2, rest2, rfl, by omega, ?_⟩
                  have := hcnt2 next.rank
                  rw [countRank_cons, countRank_cons] at this
                  rw [if_pos rfl, if_pos (by omega : n2.rank = next.rank)]
                    at this
                  omega)
            refine ⟨preRev2, curr2, tl2, by rw [hstep]; exact hok, hcWFpre,
              hcWFc, hcWFt, hcpw,
              hcsuf.trans (List.suffix_cons next (n2 :: rest2)), hcgt, ?_⟩
            intro t ht
            rcases List.mem_cons.mp ht with rfl | ht2
            · rcases hcmax next (List.mem_cons_self _ _) with ⟨u, hu, hle⟩ | hle
              · exact Or.inl ⟨u, hu, le_trans hcurrnext hle⟩
              · exact Or.inr (le_trans hcurrnext hle)
            · exact hcmax t ht2
          · have hC : ¬ (((curr.rank == next.rank) &&
                threeTest curr.rank (n2 :: rest2)) = true) := by
              simp [threeTest, hthree]
            rw [if_neg hC] at hstep
            have hrestgt : ∀ u ∈ n2 :: rest2, curr.rank < u.rank := by
              intro u hu
              have hn2le := hnextle n2 (List.mem_cons_self _ _)
              rcases List.pairwise_cons.mp hpwrest with ⟨hn2le2, _⟩
              rcases List.mem_cons.mp hu with rfl | hu2
              · omega
              · have := hn2le2 u hu2
                omega
            obtain ⟨z, hcz, hzWF, hzrank⟩ :=
              combine_WF curr.root next.root r hWFcurr.1 hWFnext.1
            rw [hcz] at hstep
            simp only [Except.bind] at hstep
            have hzrank2 : z.rank = curr.rank + 1 := by
              rw [hzrank, hWFcurr.2]
            obtain ⟨preRev2, curr2, tl2, hok, hcWFpre, hcWFc, hcWFt, hcpw,
                hcsuf, hcgt, hcmax⟩ :=
              ih r sr preRev { curr with root := z, rank := z.rank }
                (n2 :: rest2)
                (by simp only [List.length_cons] at hf ⊢; omega)
                hWFpre
                (by
                  intro t ht
                  rcases List.mem_cons.mp ht with rfl | ht2
                  · exact ⟨hzWF, rfl⟩
                  · exact hWFall t
                      (List.mem_cons_of_mem _ (List.mem_cons_of_mem _ ht2)))
                (by
                  rw [List.pairwise_cons]
                  refine ⟨?_, hpwrest⟩
                  intro u hu
                  have := hrestgt u hu
                  show z.rank ≤ u.rank
                  omega)
                (by
                  intro v
                  have := hcnt2 v
                  rw [countRank_cons] at this
                  split_ifs at this <;> omega)
                (by
                  intro v hv
                  have := hcnt1 v hv
                  rw [countRank_cons] at this
                  split_ifs at this <;> omega)
                hp1
                (by
                  intro t ht
                  have := hp2 t ht
                  show t.rank ≤ z.rank
                  omega)
                (by
                  rintro ⟨t, ht, heq⟩
                  have h1 := hp2 t ht
                  have : t.rank = z.rank := heq
                  omega)
            refine ⟨preRev2, curr2, tl2, by rw [hstep]; exact hok, hcWFpre,
              hcWFc, hcWFt, hcpw, ?_, hcgt, ?_⟩
            · exact hcsuf.trans (List.suffix_cons next (n2 :: rest2))
            · intro t ht
              have hmaxz := hcmax { curr with root := z, rank := z.rank }
                (List.mem_cons_self _ _)
              have hble : ∀ w : tree, w.rank ≤ z.rank →
                  (∃ u ∈ tl2, w.rank ≤ u.rank) ∨ w.rank ≤ curr2.rank := by
                intro w hw
                rcases hmaxz with ⟨u, hu, hle⟩ | hle
                · exact Or.inl ⟨u, hu, le_trans hw hle⟩
                · exact Or.inr (le_trans hw hle)
              rcases List.mem_cons.mp ht with rfl | ht2
              · exact hble t (by omega)
              rcases List.mem_cons.mp ht2 with rfl | ht3
              · exact hble t (by omega)
              · exact hcmax t (List.mem_cons_of_mem _ ht3)
      · have hA : ¬ ((curr.rank == next.rank) = true) := by simp [htwo]
        rw [if_pos hA] at hstep
        by_cases c2 : curr.rank > sr
        · rw [if_pos c2] at hstep
          have hcurrlt : ∀ u ∈ next :: rest, curr.rank < u.rank := by
            intro u hu
            rcases List.mem_cons.mp hu with rfl | hu2
            · exact lt_of_le_of_ne hcurrnext htwo
            · exact lt_of_lt_of_le (lt_of_le_of_ne hcurrnext htwo)
                (hnextle u hu2)
          refine ⟨preRev, curr, next :: rest, hstep, hWFpre, hWFcurr,
            (fun t ht => hWFall t (List.mem_cons_of_mem _ ht)), ?_,
            List.suffix_refl _, ?_, ?_⟩
          · rw [List.pairwise_append]
            refine ⟨List.pairwise_reverse.mpr hp1, ?_, ?_⟩
            · rw [List.pairwise_cons]
              refine ⟨hcurrlt, ?_⟩
              apply pairwise_lt_of_counts sr _ hpwtl hcnt1
              intro t ht
              exact lt_of_lt_of_le c2 (hcurrle t ht)
            · intro a ha b hb
              rw [List.mem_reverse] at ha
              have halt : a.rank < curr.rank := hprelt htwo a ha
              rcases List.mem_cons.mp hb with rfl | hb2
              · exact halt
              · exact lt_trans halt (hcurrlt b hb2)
          · intro t ht
            rcases List.mem_cons.mp ht with rfl | ht2
            · exact lt_of_lt_of_le c2 hcurrnext
            · exact lt_of_lt_of_le c2
                (le_trans hcurrnext (hnextle t ht2))
          · intro t ht
            rcases List.mem_cons.mp ht with rfl | ht2
            · exact Or.inr (le_refl _)
            · exact Or.inl ⟨t, ht2, le_refl _⟩
        · rw [if_neg c2] at hstep
          obtain ⟨preRev2, curr2, tl2, hok, hcWFpre, hcWFc, hcWFt, hcpw,
              hcsuf, hcgt, hcmax⟩ :=
            ih r sr (curr :: preRev) next rest
              (by simp only [List.length_cons] at hf ⊢; omega)
              (by
                intro t ht
                rcases List.mem_cons.mp ht with rfl | ht2
                · exact hWFcurr
                · exact hWFpre t ht2)
              (fun t ht => hWFall t (List.mem_cons_of_mem _ ht))
              hpwtl
              (by
                intro v
                have := hcnt2 v
                rw [countRank_cons] at this
                split_ifs at this <;> omega)
              (by
                intro v hv
                have := hcnt1 v hv
                rw [countRank_cons] at this
                split_ifs at this <;> omega)
              (List.pairwise_cons.mpr ⟨hprelt htwo, hp1⟩)
              (by
                intro t ht
                rcases List.mem_cons.mp ht with rfl | ht2
                · exact hcurrnext
                · exact le_trans (le_of_lt (hprelt htwo t ht2)) hcurrnext)
              (by
                rintro ⟨t, ht, heq⟩
                rcases List.mem_cons.mp ht with rfl | ht2
                · exact absurd heq htwo
                · have := hprelt htwo t ht2
                  omega)
          refine ⟨preRev2, curr2, tl2, by rw [hstep]; exact hok, hcWFpre,
            hcWFc, hcWFt, hcpw, hcsuf.trans (List.suffix_cons next rest),
            hcgt, ?_⟩
          intro t ht
          rcases List.mem_cons.mp ht with rfl | ht2
          · rcases hcmax next (List.mem_cons_self _ _) with ⟨u, hu, hle⟩ | hle
            · exact Or.inl ⟨u, hu, le_trans hcurrnext hle⟩
            · exact Or.inr (le_trans hcurrnext hle)
          · exact hcmax t ht2

theorem TreeWF_of_proj (u w : tree) (hroot : u.root = w.root)
    (hrank : u.rank = w.rank) (h : TreeWF w) : TreeWF u := by
  refine ⟨?_, ?_⟩
  · rw [hroot]
    exact h.1
  · rw [hrank, hroot]
    exact h.2

/-- The only error merge_into can produce is the NULL dereference at the end
of the destination list. -/
theorem mergeIntoF_error : ∀ (f : Nat) (pl ql : List tree) (e : SHErr),
    mergeIntoF f pl ql = .error e → e = SHErr.nullDeref := by
  intro f
  induction f with
  | zero =>
    intro pl ql e h
    simp only [mergeIntoF, Except.error.injEq] at h
    exact h.symm
  | succ f ih =>
    intro pl ql e h
    rcases pl with _ | ⟨p, ps⟩
    · simp [mergeIntoF] at h
    · rcases ql with _ | ⟨q, qs⟩
      · simp only [mergeIntoF, Except.error.injEq] at h
        exact h.symm
      · simp only [mergeIntoF] at h
        split_ifs at h with hlt
        · rcases h2 : mergeIntoF f (p :: ps) qs with e2 | M2
          · rw [h2] at h
            simp only [Except.map, Except.error.injEq] at h
            rw [← h]
            exact ih _ _ _ h2
          · rw [h2] at h; simp [Except.map] at h
        · rcases h2 : mergeIntoF f ps (q :: qs) with e2 | M2
          · rw [h2] at h
            simp only [Except.map, Except.error.injEq] at h
            rw [← h]
            exact ih _ _ _ h2
          · rw [h2] at h; simp [Except.map] at h

/-- The heart of meld: merging the root list of a well-formed source heap
into a well-formed destination heap and running repeated_combine with the
source rank as smaller_rank yields a heap that is well-formed again, with
correct suffix-min pointers, and keeps the destination epsilon and r. -/
theorem meld_core (dst src R : softheap) (M : List tree)
    (hdstWF : ∀ t ∈ dst.first, TreeWF t) (hdstS : ranksSorted dst.first)
    (hdstB : ∀ t ∈ dst.first, t.rank ≤ dst.rank) (hdstsuf : sufminOK dst.first)
    (hsrcWF : ∀ t ∈ src.first, TreeWF t) (hsrcS : ranksSorted src.first)
    (hsrcB : ∀ t ∈ src.first, t.rank ≤ src.rank)
    (hmerge : merge_into src.first dst.first = .ok M)
    (hrc : repeated_combine { dst with first := M } src.rank dst.r = .ok R) :
    (∀ t ∈ R.first, TreeWF t) ∧ ranksSorted R.first ∧
    (∀ t ∈ R.first, t.rank ≤ R.rank) ∧ sufminOK R.first ∧
    R.epsilon = dst.epsilon ∧ R.r = dst.r := by
  have hmergeF : mergeIntoF (src.first.length + dst.first.length + 1)
      src.first dst.first = .ok M := hmerge
  rcases M with _ | ⟨m, ms⟩
  · simp [repeated_combine] at hrc
  · have hmem := mergeIntoF_mem _ _ _ _ hmergeF
    have hcount := mergeIntoF_count _ _ _ _ hmergeF
    have hsortedM := mergeIntoF_sorted _ _ _ _ hmergeF
      (((ranksSorted_iff _).mp hsrcS).imp (fun h => le_of_lt h))
      (((ranksSorted_iff _).mp hdstS).imp (fun h => le_of_lt h))
    have hsrc1 : ∀ v, countRank src.first v ≤ 1 :=
      fun v => countRank_le_one _ _ ((ranksSorted_iff _).mp hsrcS)
    have hdst1 : ∀ v, countRank dst.first v ≤ 1 :=
      fun v => countRank_le_one _ _ ((ranksSorted_iff _).mp hdstS)
    obtain ⟨preRev2, curr2, tl2, hok, hWF1, hWF2, hWF3, hpwfinal, hsuffix,
        hgtsr, hmax⟩ :=
      rcF_main ((m :: ms).length + 1) dst.r src.rank [] m ms
        (Nat.lt_succ_self _)
        (fun t ht => absurd ht (List.not_mem_nil _))
        (fun t ht => (hmem t ht).elim (hsrcWF t) (hdstWF t))
        hsortedM
        (by
          intro v
          have hc := hcount v
          rw [countRank_cons] at hc
          have h1 := hsrc1 v
          have h2 := hdst1 v
          split_ifs at hc <;> omega)
        (by
          intro v hv
          have hc := hcount v
          rw [countRank_cons] at hc
          have h1 : countRank src.first v = 0 := by
            apply countRank_eq_zero
            intro t ht
            have := hsrcB t ht
            omega
          have h2 := hdst1 v
          split_ifs at hc <;> omega)
        List.Pairwise.nil
        (fun t ht => absurd ht (List.not_mem_nil _))
        (by rintro ⟨t, ht, _⟩; exact absurd ht (List.not_mem_nil _))
    replace hrc : Except.bind (rc_aux dst.r src.rank [] (m :: ms))
        (fun x => Except.ok { dst with
          first := usmRev (x.2.1 :: x.1) x.2.2,
          rank := if x.2.1.rank > dst.rank then x.2.1.rank else dst.rank })
        = .ok R := hrc
    have hrca : rc_aux dst.r src.rank [] (m :: ms) =
        .ok (preRev2, curr2, tl2) := hok
    rw [hrca] at hrc
    simp only [Except.bind] at hrc
    rw [Except.ok.injEq] at hrc
    subst hrc
    have hcross := (List.pairwise_append.mp hpwfinal).2.2
    have htl2dst : List.IsSuffix tl2 dst.first := by
      apply mergeIntoF_suffix _ _ _ _ hmergeF
      · exact hsuffix.trans (List.suffix_cons m ms)
      · intro t ht p hp
        have h1 := hsrcB p hp
        have h2 := hgtsr t ht
        omega
    refine ⟨?_, ?_, ?_, ?_, rfl, rfl⟩
    · intro t ht
      obtain ⟨w, hw, hroot, hrank⟩ := usmRev_mem _ _ t ht
      refine TreeWF_of_proj t w hroot hrank ?_
      rcases hw with hw | hw
      · rcases List.mem_cons.mp hw with rfl | hw2
        · exact hWF2
        · exact hWF1 w hw2
      · exact hWF3 w hw
    · have hmapeq : (usmRev (curr2 :: preRev2) tl2).map tree.rank =
          (preRev2.reverse ++ curr2 :: tl2).map tree.rank := by
        rw [usmRev_map tree.rank (fun t suf => usmHead_rank t suf),
          List.reverse_cons]
        simp [List.map_append]
      show List.Pairwise (fun a b => a < b) _
      rw [show ({ dst with
          first := usmRev (curr2 :: preRev2) tl2,
          rank := if curr2.rank > dst.rank then curr2.rank else dst.rank }
            : softheap).first = usmRev (curr2 :: preRev2) tl2 from rfl,
        hmapeq]
      exact List.pairwise_map.mpr hpwfinal
    · intro t ht
      obtain ⟨w, hw, hroot, hrank⟩ := usmRev_mem _ _ t ht
      show t.rank ≤ if curr2.rank > dst.rank then curr2.rank else dst.rank
      rw [hrank]
      rcases hw with hw | hw
      · rcases List.mem_cons.mp hw with rfl | hw2
        · split_ifs <;> omega
        · have := hcross w (List.mem_reverse.mpr hw2) curr2
            (List.mem_cons_self _ _)
          split_ifs <;> omega
      · have hwdst : w ∈ dst.first := htl2dst.subset hw
        have := hdstB w hwdst
        split_ifs <;> omega
    · show sufminOK (usmRev (curr2 :: preRev2) tl2)
      apply usmRev_sufminOK
      exact sufminOK_isSuffix _ _ htl2dst hdstsuf

/-- meld preserves the heap invariants: a successful meld of two
well-formed heaps is well-formed with correct suffix-min pointers. -/
theorem meld_WF (P Q R : softheap) (hP : WF0 P) (hPs : sufminOK P.first)
    (hQ : WF0 Q) (hQs : sufminOK Q.first) (h : meld P Q = .ok R) :
    WF0 R ∧ sufminOK R.first := by
  obtain ⟨hPWF, hPS, hPB, hPe0, hPe1⟩ := hP
  obtain ⟨hQWF, hQS, hQB, hQe0, hQe1⟩ := hQ
  simp only [meld] at h
  split_ifs at h with htol hrank
  · rcases hm : merge_into Q.first P.first with e | M
    · rw [hm] at h
      replace h : (Except.error e : Except SHErr softheap) = .ok R := h
      simp at h
    · rw [hm] at h
      replace h : repeated_combine { P with first := M } Q.rank P.r = .ok R := h
      obtain ⟨h1, h2, h3, h4, heps, hr⟩ :=
        meld_core P Q R M hPWF hPS hPB hPs hQWF hQS hQB hm h
      exact ⟨⟨h1, h2, h3, by rw [heps]; exact hPe0, by rw [heps]; exact hPe1⟩, h4⟩
  · rcases hm : merge_into P.first Q.first with e | M
    · rw [hm] at h
      replace h : (Except.error e : Except SHErr softheap) = .ok R := h
      simp at h
    · rw [hm] at h
      replace h : repeated_combine { Q with first := M } P.rank Q.r = .ok R := h
      obtain ⟨h1, h2, h3, h4, heps, hr⟩ :=
        meld_core Q P R M hQWF hQS hQB hQs hPWF hPS hPB hm h
      exact ⟨⟨h1, h2, h3, by rw [heps]; exact hQe0, by rw [heps]; exact hQe1⟩, h4⟩

theorem makeheap_empty_WF (eps : ℚ) (P : softheap)
    (h : makeheap_empty eps = .ok P) : WF0 P ∧ sufminOK P.first := by
  rw [makeheap_empty] at h
  split_ifs at h with hc
  rw [Except.ok.injEq] at h
  subst h
  push_neg at hc
  refine ⟨⟨fun t ht => absurd ht (List.not_mem_nil _), by simp [ranksSorted],
    fun t ht => absurd ht (List.not_mem_nil _), hc.1, hc.2⟩, trivial⟩

theorem makeheap_WF (el : Int) (eps : ℚ) (P : softheap)
    (h : makeheap el eps = .ok P) : WF0 P ∧ sufminOK P.first := by
  rw [makeheap] at h
  rcases he : makeheap_empty eps with e | s
  · rw [he] at h
    replace h : (Except.error e : Except SHErr softheap) = .ok P := h
    simp at h
  · rw [he] at h
    replace h : (Except.ok { s with first := [maketree el], rank := 0 }
        : Except SHErr softheap) = .ok P := h
    rw [Except.ok.injEq] at h
    subst h
    obtain ⟨⟨_, _, _, he0, he1⟩, _⟩ := makeheap_empty_WF eps s he
    refine ⟨⟨?_, ?_, ?_, he0, he1⟩, ?_⟩
    · intro t ht
      rcases List.mem_cons.mp ht with rfl | ht2
      · exact TreeWF_maketree el
      · exact absurd ht2 (List.not_mem_nil _)
    · simp [ranksSorted, maketree]
    · intro t ht
      rcases List.mem_cons.mp ht with rfl | ht2
      · show (maketree el).rank ≤ 0
        rw [maketree]
      · exact absurd ht2 (List.not_mem_nil _)
    · exact sufminOK_singleton _ rfl

/-- insert preserves the heap invariants. -/
theorem insert_WF (P : softheap) (el : Int) (Q : softheap) (hWF : WF0 P)
    (hs : sufminOK P.first) (h : insert P el = .ok Q) :
    WF0 Q ∧ sufminOK Q.first := by
  rw [insert] at h
  split_ifs at h with hemp
  · simp only [Except.ok.injEq] at h
    subst h
    obtain ⟨_, _, _, he0, he1⟩ := hWF
    refine ⟨⟨?_, ?_, ?_, he0, he1⟩, ?_⟩
    · intro t ht
      rcases List.mem_cons.mp ht with rfl | ht2
      · exact TreeWF_maketree el
      · exact absurd ht2 (List.not_mem_nil _)
    · simp [ranksSorted, maketree]
    · intro t ht
      rcases List.mem_cons.mp ht with rfl | ht2
      · show (maketree el).rank ≤ 0
        rw [maketree]
      · exact absurd ht2 (List.not_mem_nil _)
    · exact sufminOK_singleton _ rfl
  · rcases hmk : makeheap el P.epsilon with e | s
    · rw [hmk] at h
      replace h : (Except.error e : Except SHErr softheap) = .ok Q := h
      simp at h
    · rw [hmk] at h
      replace h : meld P s = .ok Q := h
      obtain ⟨hsWF, hssuf⟩ := makeheap_WF el P.epsilon s hmk
      exact meld_WF P s Q hWF hs hsWF hssuf h

theorem TreeWF_set (l : List tree) (k : Nat) (t2 : tree)
    (h : ∀ t ∈ l, TreeWF t) (h2 : TreeWF t2) : ∀ t ∈ l.set k t2, TreeWF t := by
  intro t ht
  rcases List.mem_or_eq_of_mem_set ht with hmem | rfl
  · exact h t hmem
  · exact h2

theorem TreeWF_usm (l : List tree) (k : Nat) (h : ∀ t ∈ l, TreeWF t) :
    ∀ t ∈ update_suffix_min l k, TreeWF t := by
  intro t ht
  rw [update_suffix_min] at ht
  obtain ⟨w, hw, hroot, hrank⟩ := usmRev_mem _ _ t ht
  refine TreeWF_of_proj t w hroot hrank ?_
  rcases hw with hw | hw
  · rw [List.mem_reverse] at hw
    exact h w (List.take_subset _ _ hw)
  · exact h w (List.drop_subset _ _ hw)

theorem rankBound_of_map (l1 l2 : List tree) (b : Int)
    (hmap : l1.map tree.rank = l2.map tree.rank) (h : ∀ t ∈ l2, t.rank ≤ b) :
    ∀ t ∈ l1, t.rank ≤ b := by
  intro t ht
  have hmem : t.rank ∈ l2.map tree.rank := by
    rw [← hmap]
    exact List.mem_map_of_mem _ ht
  obtain ⟨w, hw, hweq⟩ := List.mem_map.mp hmem
  rw [← hweq]
  exact h w hw

/-- Removing the head item preserves node well-formedness as long as at
least one item remains. -/
theorem NodeWF_popped (x : node) (hWF : NodeWF x) (hne : x.items.tail ≠ []) :
    NodeWF (popped x) := by
  obtain ⟨hb, hne0, hnelems, hsz, hOL, hOR⟩ := (NodeWF_iff x).mp hWF
  rw [NodeWF_iff]
  refine ⟨?_, ?_, ?_, ?_, ?_, ?_⟩
  · intro k hk
    rw [popped_items] at hk
    rw [popped_ckey]
    exact hb k (List.mem_of_mem_tail hk)
  · rw [popped_items]
    exact hne
  · rcases hx : x.items with _ | ⟨a, as⟩
    · exact absurd hx hne0
    · rw [popped_nelems, popped_items, hnelems, hx, List.length_cons,
        List.tail_cons]
      push_cast
      omega
  · rw [popped_size]
    exact hsz
  · rw [popped_ckey, popped_left]
    exact hOL
  · rw [popped_ckey, popped_right]
    exact hOR

/-- extract_min_with_ckey preserves the heap invariants. -/
theorem extract_WF (P : softheap) (e c : Int) (Q : softheap) (hWF : WF0 P)
    (hsuf : sufminOK P.first) (h : extract_min_with_ckey P = .ok (e, c, Q)) :
    WF0 Q ∧ sufminOK Q.first := by
  obtain ⟨hPWF, hPS, hPB, hPe0, hPe1⟩ := hWF
  rcases hfirst : P.first with _ | ⟨t0, rest⟩
  · simp only [extract_min_with_ckey, hfirst] at h
    simp at h
  · have hsuf2 := hsuf
    rw [hfirst, sufminOK_cons] at hsuf2
    obtain ⟨hsuftail, tg, htg, hmin⟩ := hsuf2
    have htgP : P.first.get? t0.sufmin = some tg := by rw [hfirst]; exact htg
    have htgmem : tg ∈ P.first := List.get?_mem htgP
    have hWFtg : TreeWF tg := hPWF tg htgmem
    obtain ⟨hb, hne0, hnelems, hszk, hOL, hOR⟩ := (NodeWF_iff tg.root).mp hWFtg.1
    obtain ⟨e0, tl, hitems⟩ : ∃ e0 tl, tg.root.items = e0 :: tl := by
      rcases hx : tg.root.items with _ | ⟨e0, tl⟩
      · exact absurd hx hne0
      · exact ⟨e0, tl, rfl⟩
    have hkidx : t0.sufmin < (t0 :: rest).length := by
      rcases List.get?_eq_some.mp htg with ⟨hlt, _⟩
      exact hlt
    have hPWF2 : ∀ t ∈ t0 :: rest, TreeWF t := by
      rw [← hfirst]
      exact hPWF
    have hPSm : List.Pairwise (fun a b : Int => a < b)
        ((t0 :: rest).map tree.rank) := by
      have h2 := hPS
      rw [ranksSorted, hfirst] at h2
      exact h2
    have hPS2 : List.Pairwise (fun a b => a.rank < b.rank) (t0 :: rest) :=
      List.pairwise_map.mp hPSm
    have hPB2 : ∀ t ∈ t0 :: rest, t.rank ≤ P.rank := by
      rw [← hfirst]
      exact hPB
    have hsufd : ∀ n : Nat, sufminOK ((t0 :: rest).drop n) := by
      intro n
      apply sufminOK_isSuffix _ _ (List.drop_suffix _ _)
      rw [← hfirst]
      exact hsuf
    have hnelems2 : (popped tg.root).nelems = (tl.length : Int) := by
      rw [popped_nelems, hnelems, hitems, List.length_cons]
      push_cast
      omega
    have hmain : extract_min_with_ckey P =
        (if (popped tg.root).nelems ≤ Int.tdiv (popped tg.root).size 2 then
          if ¬ leaf (popped tg.root) then
            (sift (popped tg.root) >>= fun x3 =>
              .ok (e0, (popped tg.root).ckey,
                { P with first := (update_suffix_min
                    ((t0 :: rest).set t0.sufmin { tg with root := x3 })
                    t0.sufmin) }))
          else if (popped tg.root).nelems = 0 then
            .ok (e0, (popped tg.root).ckey,
              { P with
                first := (if t0.sufmin = 0 then (t0 :: rest).eraseIdx t0.sufmin
                  else update_suffix_min ((t0 :: rest).eraseIdx t0.sufmin)
                    (t0.sufmin - 1)),
                rank := (if t0.sufmin + 1 = (t0 :: rest).length then
                    (if t0.sufmin = 0 then -1
                     else match ((t0 :: rest).eraseIdx t0.sufmin).get?
                         (t0.sufmin - 1) with
                       | Option.some u => u.rank
                       | Option.none => P.rank)
                  else P.rank) })
          else .ok (e0, (popped tg.root).ckey,
            { P with first := ((t0 :: rest).set t0.sufmin
                { tg with root := popped tg.root }) })
        else .ok (e0, (popped tg.root).ckey,
          { P with first := ((t0 :: rest).set t0.sufmin
              { tg with root := popped tg.root }) })) := by
      simp only [extract_min_with_ckey, hfirst, htg, hitems]
    rw [hmain] at h
    have hsetcase : tl ≠ [] →
        WF0 { P with first := ((t0 :: rest).set t0.sufmin
          { tg with root := popped tg.root }) } ∧
        sufminOK ((t0 :: rest).set t0.sufmin
          { tg with root := popped tg.root }) := by
      intro htl
      have hnew : TreeWF { tg with root := popped tg.root } := by
        refine ⟨NodeWF_popped tg.root hWFtg.1 ?_, ?_⟩
        · rw [hitems, List.tail_cons]
          exact htl
        · show tg.rank = (popped tg.root).rank
          rw [popped_rank]
          exact hWFtg.2
      have hmapr : ((t0 :: rest).set t0.sufmin
          { tg with root := popped tg.root }).map tree.rank =
          (t0 :: rest).map tree.rank := by
        apply map_proj_set
        rw [List.get?_map, htg]
        rfl
      have hmapp : ((t0 :: rest).set t0.sufmin
          { tg with root := popped tg.root }).map
            (fun t => (t.root.ckey, t.sufmin)) =
          (t0 :: rest).map (fun t => (t.root.ckey, t.sufmin)) := by
        apply map_proj_set
        rw [List.get?_map, htg]
        rfl
      refine ⟨⟨TreeWF_set _ _ _ hPWF2 hnew, ?_, ?_, hPe0, hPe1⟩, ?_⟩
      · show List.Pairwise (fun a b : Int => a < b)
          (((t0 :: rest).set t0.sufmin
            { tg with root := popped tg.root }).map tree.rank)
        rw [hmapr]
        exact hPSm
      · intro t ht
        exact rankBound_of_map _ _ P.rank hmapr hPB2 t ht
      · exact sufminOK_of_proj_eq _ _ hmapp.symm (hfirst ▸ hsuf)
    by_cases hdef : (popped tg.root).nelems ≤ Int.tdiv (popped tg.root).size 2
    · rw [if_pos hdef] at h
      by_cases hlf : leaf (popped tg.root)
      · rw [if_neg (not_not.mpr hlf)] at h
        by_cases hzero : (popped tg.root).nelems = 0
        · -- empty leaf root: the tree is destroyed
          rw [if_pos hzero] at h
          have hl2WF : ∀ t ∈ (t0 :: rest).eraseIdx t0.sufmin, TreeWF t :=
            fun t ht => hPWF2 t (List.eraseIdx_subset _ _ ht)
          have hl2S : List.Pairwise (fun a b => a.rank < b.rank)
              ((t0 :: rest).eraseIdx t0.sufmin) :=
            List.Pairwise.sublist (List.eraseIdx_sublist _ _) hPS2
          have hl2len : ((t0 :: rest).eraseIdx t0.sufmin).length =
              (t0 :: rest).length - 1 := by
            rw [List.length_eraseIdx, if_pos hkidx]
          by_cases hk0 : t0.sufmin = 0
          · rw [if_pos hk0] at h
            by_cases hlast : t0.sufmin + 1 = (t0 :: rest).length
            · rw [if_pos hlast, if_pos hk0] at h
              rw [Except.ok.injEq, Prod.mk.injEq] at h
              obtain ⟨-, h⟩ := h
              rw [Prod.mk.injEq] at h
              obtain ⟨-, hQ⟩ := h
              subst hQ
              have hrestnil : rest = [] := by
                rw [hk0, List.length_cons] at hlast
                exact List.eq_nil_of_length_eq_zero (by omega)
              have hfe : (t0 :: rest).eraseIdx t0.sufmin = rest := by
                rw [hk0]
                rfl
              refine ⟨⟨?_, ?_, ?_, hPe0, hPe1⟩, ?_⟩
              · intro t ht
                exact hl2WF t ht
              · show List.Pairwise (fun a b : Int => a < b)
                  (((t0 :: rest).eraseIdx t0.sufmin).map tree.rank)
                exact List.pairwise_map.mpr hl2S
              · intro t ht
                have ht2 : t ∈ rest := by rw [← hfe]; exact ht
                rw [hrestnil] at ht2
                exact absurd ht2 (List.not_mem_nil _)
              · show sufminOK ((t0 :: rest).eraseIdx t0.sufmin)
                rw [hfe]
                exact hsuftail
            · rw [if_neg hlast] at h
              rw [Except.ok.injEq, Prod.mk.injEq] at h
              obtain ⟨-, h⟩ := h
              rw [Prod.mk.injEq] at h
              obtain ⟨-, hQ⟩ := h
              subst hQ
              have hfe : (t0 :: rest).eraseIdx t0.sufmin = rest := by
                rw [hk0]
                rfl
              refine ⟨⟨?_, ?_, ?_, hPe0, hPe1⟩, ?_⟩
              · intro t ht
                exact hl2WF t ht
              · show List.Pairwise (fun a b : Int => a < b)
                  (((t0 :: rest).eraseIdx t0.sufmin).map tree.rank)
                exact List.pairwise_map.mpr hl2S
              · intro t ht
                have ht2 : t ∈ (t0 :: rest).eraseIdx t0.sufmin := ht
                exact hPB2 t (List.eraseIdx_subset _ _ ht2)
              · show sufminOK ((t0 :: rest).eraseIdx t0.sufmin)
                rw [hfe]
                exact hsuftail
          · rw [if_neg hk0] at h
            have hk1 : 1 ≤ t0.sufmin := by omega
            have hdropeq : ((t0 :: rest).eraseIdx t0.sufmin).drop t0.sufmin =
                (t0 :: rest).drop (t0.sufmin + 1) := by
              rw [List.eraseIdx_eq_take_drop_succ]
              exact List.drop_left' (by
                rw [List.length_take]
                exact min_eq_left (le_of_lt hkidx))
            have husm : update_suffix_min ((t0 :: rest).eraseIdx t0.sufmin)
                (t0.sufmin - 1) =
                usmRev ((((t0 :: rest).eraseIdx t0.sufmin).take
                  t0.sufmin).reverse)
                  (((t0 :: rest).eraseIdx t0.sufmin).drop t0.sufmin) := by
              rw [update_suffix_min,
                show t0.sufmin - 1 + 1 = t0.sufmin from by omega]
            have hsufres : sufminOK (update_suffix_min
                ((t0 :: rest).eraseIdx t0.sufmin) (t0.sufmin - 1)) := by
              rw [husm]
              apply usmRev_sufminOK
              rw [hdropeq]
              exact hsufd (t0.sufmin + 1)
            have htreesres : ∀ t ∈ update_suffix_min
                ((t0 :: rest).eraseIdx t0.sufmin) (t0.sufmin - 1), TreeWF t :=
              TreeWF_usm _ _ hl2WF
            have hsortres : List.Pairwise (fun a b : Int => a < b)
                ((update_suffix_min ((t0 :: rest).eraseIdx t0.sufmin)
                  (t0.sufmin - 1)).map tree.rank) := by
              rw [usm_proj tree.rank (fun t suf => usmHead_rank t suf)]
              exact List.pairwise_map.mpr hl2S
            by_cases hlast : t0.sufmin + 1 = (t0 :: rest).length
            · rw [if_pos hlast, if_neg hk0] at h
              have hulen : t0.sufmin - 1 <
                  ((t0 :: rest).eraseIdx t0.sufmin).length := by
                rw [hl2len]
                omega
              obtain ⟨u, hu⟩ : ∃ u, ((t0 :: rest).eraseIdx t0.sufmin).get?
                  (t0.sufmin - 1) = some u :=
                ⟨_, List.get?_eq_get hulen⟩
              rw [hu] at h
              rw [Except.ok.injEq, Prod.mk.injEq] at h
              obtain ⟨-, h⟩ := h
              rw [Prod.mk.injEq] at h
              obtain ⟨-, hQ⟩ := h
              subst hQ
              have hbound : ∀ t ∈ (t0 :: rest).eraseIdx t0.sufmin,
                  t.rank ≤ u.rank := by
                apply sorted_get_bound _ hl2S _ _ hu
                rw [hl2len]
                omega
              refine ⟨⟨htreesres, hsortres, ?_, hPe0, hPe1⟩, hsufres⟩
              intro t ht
              show t.rank ≤ u.rank
              exact rankBound_of_map _ _ u.rank
                (usm_proj tree.rank (fun t suf => usmHead_rank t suf) _ _)
                hbound t ht
            · rw [if_neg hlast] at h
              rw [Except.ok.injEq, Prod.mk.injEq] at h
              obtain ⟨-, h⟩ := h
              rw [Prod.mk.injEq] at h
              obtain ⟨-, hQ⟩ := h
              subst hQ
              refine ⟨⟨htreesres, hsortres, ?_, hPe0, hPe1⟩, hsufres⟩
              intro t ht
              show t.rank ≤ P.rank
              exact rankBound_of_map _ _ P.rank
                (usm_proj tree.rank (fun t suf => usmHead_rank t suf) _ _)
                (fun t ht2 => hPB2 t (List.eraseIdx_subset _ _ ht2)) t ht
        · -- nonempty leaf root: only the item is removed
          rw [if_neg hzero] at h
          rw [Except.ok.injEq, Prod.mk.injEq] at h
          obtain ⟨-, h⟩ := h
          rw [Prod.mk.injEq] at h
          obtain ⟨-, hQ⟩ := h
          subst hQ
          apply hsetcase
          intro hnil
          rw [hnil] at hnelems2
          simp at hnelems2
          exact hzero hnelems2
      · -- deficient non-leaf root: sift and recompute suffix minima
        rw [if_pos hlf] at h
        have hPre2 : SiftPre (popped tg.root) := by
          refine ⟨?_, by simp [hszk], ?_, ?_, ?_, ?_⟩
          · simp only [popped_nelems, popped_items, hnelems, hitems]
            simp
          · intro k hk
            simp only [popped_items] at hk
            simp only [popped_ckey]
            exact hb k (List.mem_of_mem_tail hk)
          · rw [popped_left]
            exact ((OWF_iff _ _).mp hOL).2
          · rw [popped_right]
            exact ((OWF_iff _ _).mp hOR).2
          · intro _
            constructor
            · rw [popped_ckey, popped_left]
              exact ((OWF_iff _ _).mp hOL).1
            · rw [popped_ckey, popped_right]
              exact ((OWF_iff _ _).mp hOR).1
        obtain ⟨x3, hx3, hb3, hne3, hcw3L, hcw3R, hle3L, hle3R, hnonempty3, -⟩ :=
          sift_main (siftFuel (popped tg.root)) (popped tg.root)
            (Nat.lt_succ_self _) hPre2
        have hsift : sift (popped tg.root) = .ok x3 := hx3
        rw [hsift] at h
        replace h : (Except.ok (e0, (popped tg.root).ckey,
            { P with first := (update_suffix_min
              ((t0 :: rest).set t0.sufmin { tg with root := x3 })
              t0.sufmin) }) : Except SHErr (Int × Int × softheap)) =
            .ok (e, c, Q) := h
        rw [Except.ok.injEq, Prod.mk.injEq] at h
        obtain ⟨-, h⟩ := h
        rw [Prod.mk.injEq] at h
        obtain ⟨-, hQ⟩ := h
        subst hQ
        have hszpos : 1 ≤ (popped tg.root).size := by
          rw [popped_size]
          exact hszk
        have hx3sz := siftF_size_rank _ _ _ hx3
        have hx3ne : x3.items ≠ [] := by
          apply hnonempty3
          right
          refine ⟨?_, hlf⟩
          have := tdiv_two_lt _ hszpos
          omega
        have hx3WF : NodeWF x3 := by
          rw [NodeWF_iff]
          exact ⟨hb3, hx3ne, hne3, by rw [hx3sz.1]; exact hszpos,
            (OWF_iff _ _).mpr ⟨hle3L, hcw3L⟩, (OWF_iff _ _).mpr ⟨hle3R, hcw3R⟩⟩
        have hnew : TreeWF { tg with root := x3 } := by
          refine ⟨hx3WF, ?_⟩
          show tg.rank = x3.rank
          rw [hx3sz.2, popped_rank]
          exact hWFtg.2
        have hmapr : ((t0 :: rest).set t0.sufmin
            { tg with root := x3 }).map tree.rank =
            (t0 :: rest).map tree.rank := by
          apply map_proj_set
          rw [List.get?_map, htg]
          rfl
        have hcomp : ((update_suffix_min ((t0 :: rest).set t0.sufmin
            { tg with root := x3 }) t0.sufmin)).map tree.rank =
            (t0 :: rest).map tree.rank := by
          rw [usm_proj tree.rank (fun t suf => usmHead_rank t suf), hmapr]
        refine ⟨⟨?_, ?_, ?_, hPe0, hPe1⟩, ?_⟩
        · exact TreeWF_usm _ _ (TreeWF_set _ _ _ hPWF2 hnew)
        · show List.Pairwise (fun a b : Int => a < b)
            ((update_suffix_min ((t0 :: rest).set t0.sufmin
              { tg with root := x3 }) t0.sufmin).map tree.rank)
          rw [hcomp]
          exact hPSm
        · intro t ht
          exact rankBound_of_map _ _ P.rank hcomp hPB2 t ht
        · show sufminOK (update_suffix_min ((t0 :: rest).set t0.sufmin
            { tg with root := x3 }) t0.sufmin)
          rw [update_suffix_min]
          apply usmRev_sufminOK
          rw [List.drop_set, if_pos (Nat.lt_succ_self _)]
          exact hsufd (t0.sufmin + 1)
    · -- not deficient: only the item is removed
      rw [if_neg hdef] at h
      rw [Except.ok.injEq, Prod.mk.injEq] at h
      obtain ⟨-, h⟩ := h
      rw [Prod.mk.injEq] at h
      obtain ⟨-, hQ⟩ := h
      subst hQ
      apply hsetcase
      intro hnil
      apply hdef
      rw [hnelems2, hnil]
      have hsznn : 0 ≤ Int.tdiv (popped tg.root).size 2 := by
        rw [popped_size, Int.tdiv_eq_ediv (by omega) (by omega)]
        omega
      simpa using hsznn

/-- Every reachable heap satisfies the structural invariants and has correct
suffix-min pointers: the master preservation theorem over the public
operations. -/
theorem reachable_WF (P : softheap) (h : reachable P) :
    WF0 P ∧ sufminOK P.first := by
  induction h with
  | mk_empty eps P h => exact makeheap_empty_WF eps P h
  | mk el eps P h => exact makeheap_WF el eps P h
  | ins P el Q hP hop ih => exact insert_WF P el Q ih.1 ih.2 hop
  | mld P Q R hP hQ hop ihP ihQ =>
    exact meld_WF P Q R ihP.1 ihP.2 ihQ.1 ihQ.2 hop
  | ext P e c Q hP hop ih => exact extract_WF P e c Q ih.1 ih.2 hop

mutual

/-- The ckey of every node of a subtree bounds all original keys currently
stored in that node's item list. -/
def ckeyBoundN : node → Prop
  | .mk l r it ck _ _ _ => (∀ k ∈ it, k ≤ ck) ∧ ckeyBoundO l ∧ ckeyBoundO r

/-- ckeyBoundN under an optional child. -/
def ckeyBoundO : onode → Prop
  | .none => True
  | .some x => ckeyBoundN x

end

mutual

/-- Every node of a subtree holds at least one item, with nelems agreeing
with the length of its item list. -/
def nonemptyN : node → Prop
  | .mk l r it _ _ _ ne =>
    it ≠ [] ∧ ne = (it.length : Int) ∧ nonemptyO l ∧ nonemptyO r

/-- nonemptyN under an optional child. -/
def nonemptyO : onode → Prop
  | .none => True
  | .some x => nonemptyN x

end

theorem NodeWF_flags_aux : ∀ (n : Nat) (x : node), ncount x ≤ n → NodeWF x →
    ckeyBoundN x ∧ nonemptyN x := by
  intro n
  induction n with
  | zero =>
    intro x hn
    rw [ncount_eq] at hn
    omega
  | succ n ih =>
    intro x hn hWF
    obtain ⟨l, r, it, ck, rk, sz, ne⟩ := x
    obtain ⟨hb, hne, hnelems, hsz, hOL, hOR⟩ := hWF
    rw [ncount_eq] at hn
    simp only [node_left_mk, node_right_mk] at hn
    have hL : ckeyBoundO l ∧ nonemptyO l := by
      rcases l with _ | a
      · exact ⟨trivial, trivial⟩
      · rw [ocount_some] at hn
        have := ih a (by omega) hOL.2
        exact ⟨this.1, this.2⟩
    have hR : ckeyBoundO r ∧ nonemptyO r := by
      rcases r with _ | a
      · exact ⟨trivial, trivial⟩
      · rw [ocount_some] at hn
        have := ih a (by omega) hOR.2
        exact ⟨this.1, this.2⟩
    exact ⟨⟨hb, hL.1, hR.1⟩, ⟨hne, hnelems, hL.2, hR.2⟩⟩

theorem NodeWF_flags (x : node) (h : NodeWF x) : ckeyBoundN x ∧ nonemptyN x :=
  NodeWF_flags_aux (ncount x) x (le_refl _) h

/-- The head-item removal of extract_elem leaves a node satisfying the
precondition of sift. -/
theorem SiftPre_popped (x : node) (hWF : NodeWF x) : SiftPre (popped x) := by
  obtain ⟨hb, hne0, hnelems, hsz, hOL, hOR⟩ := (NodeWF_iff x).mp hWF
  refine ⟨?_, by simp [hsz], ?_, ?_, ?_, ?_⟩
  · rcases hx : x.items with _ | ⟨a, as⟩
    · exact absurd hx hne0
    · rw [popped_nelems, popped_items, hnelems, hx, List.length_cons,
        List.tail_cons]
      push_cast
      omega
  · intro k hk
    rw [popped_items] at hk
    rw [popped_ckey]
    exact hb k (List.mem_of_mem_tail hk)
  · rw [popped_left]
    exact ((OWF_iff _ _).mp hOL).2
  · rw [popped_right]
    exact ((OWF_iff _ _).mp hOR).2
  · intro _
    exact ⟨by rw [popped_ckey, popped_left]; exact ((OWF_iff _ _).mp hOL).1,
      by rw [popped_ckey, popped_right]; exact ((OWF_iff _ _).mp hOR).1⟩

/-- On a well-formed nonempty heap, extract_min_with_ckey always succeeds. -/
theorem extract_ok (P : softheap) (hWF : WF0 P) (hsuf : sufminOK P.first)
    (hne : P.first ≠ []) : ∃ out, extract_min_with_ckey P = .ok out := by
  obtain ⟨hPWF, hPS, hPB, hPe0, hPe1⟩ := hWF
  rcases hfirst : P.first with _ | ⟨t0, rest⟩
  · exact absurd hfirst hne
  · have hsuf2 := hsuf
    rw [hfirst, sufminOK_cons] at hsuf2
    obtain ⟨-, tg, htg, -⟩ := hsuf2
    have htgP : P.first.get? t0.sufmin = some tg := by rw [hfirst]; exact htg
    have hWFtg : NodeWF tg.root := (hPWF tg (List.get?_mem htgP)).1
    obtain ⟨hb, hne0, hnelems, hszk, hOL, hOR⟩ := (NodeWF_iff tg.root).mp hWFtg
    obtain ⟨e0, tl, hitems⟩ : ∃ e0 tl, tg.root.items = e0 :: tl := by
      rcases hx : tg.root.items with _ | ⟨e0, tl⟩
      · exact absurd hx hne0
      · exact ⟨e0, tl, rfl⟩
    obtain ⟨x3, hx3, -⟩ := sift_main (siftFuel (popped tg.root)) _
      (Nat.lt_succ_self _) (SiftPre_popped tg.root hWFtg)
    have hsift : sift (popped tg.root) = .ok x3 := hx3
    simp only [extract_min_with_ckey, hfirst, htg, hitems]
    split_ifs <;> first
      | exact ⟨_, rfl⟩
      | (rw [hsift]; exact ⟨_, rfl⟩)

/-- Under the merge preconditions of meld, the repeated_combine pass on a
nonempty merged root list always succeeds. -/
theorem merge_rc_ok (dst src : softheap) (M : List tree)
    (hdstWF : ∀ t ∈ dst.first, TreeWF t) (hdstS : ranksSorted dst.first)
    (hsrcWF : ∀ t ∈ src.first, TreeWF t) (hsrcS : ranksSorted src.first)
    (hsrcB : ∀ t ∈ src.first, t.rank ≤ src.rank)
    (hmerge : merge_into src.first dst.first = .ok M) (hMne : M ≠ []) :
    ∃ R, repeated_combine { dst with first := M } src.rank dst.r = .ok R := by
  have hmergeF : mergeIntoF (src.first.length + dst.first.length + 1)
      src.first dst.first = .ok M := hmerge
  rcases M with _ | ⟨m, ms⟩
  · exact absurd rfl hMne
  · have hmem := mergeIntoF_mem _ _ _ _ hmergeF
    have hcount := mergeIntoF_count _ _ _ _ hmergeF
    have hsortedM := mergeIntoF_sorted _ _ _ _ hmergeF
      (((ranksSorted_iff _).mp hsrcS).imp (fun h => le_of_lt h))
      (((ranksSorted_iff _).mp hdstS).imp (fun h => le_of_lt h))
    have hsrc1 : ∀ v, countRank src.first v ≤ 1 :=
      fun v => countRank_le_one _ _ ((ranksSorted_iff _).mp hsrcS)
    have hdst1 : ∀ v, countRank dst.first v ≤ 1 :=
      fun v => countRank_le_one _ _ ((ranksSorted_iff _).mp hdstS)
    obtain ⟨preRev2, curr2, tl2, hok, -, -, -, -, -, -, -⟩ :=
      rcF_main ((m :: ms).length + 1) dst.r src.rank [] m ms
        (Nat.lt_succ_self _)
        (fun t ht => absurd ht (List.not_mem_nil _))
        (fun t ht => (hmem t ht).elim (hsrcWF t) (hdstWF t))
        hsortedM
        (by
          intro v
          have hc := hcount v
          rw [countRank_cons] at hc
          have h1 := hsrc1 v
          have h2 := hdst1 v
          split_ifs at hc <;> omega)
        (by
          intro v hv
          have hc := hcount v
          rw [countRank_cons] at hc
          have h1 : countRank src.first v = 0 := by
            apply countRank_eq_zero
            intro t ht
            have := hsrcB t ht
            omega
          have h2 := hdst1 v
          split_ifs at hc <;> omega)
        List.Pairwise.nil
        (fun t ht => absurd ht (List.not_mem_nil _))
        (by rintro ⟨t, ht, _⟩; exact absurd ht (List.not_mem_nil _))
    have hrca : rc_aux dst.r src.rank [] (m :: ms) =
        .ok (preRev2, curr2, tl2) := hok
    have hfinal : repeated_combine { dst with first := m :: ms } src.rank dst.r
        = .ok { dst with
          first := usmRev (curr2 :: preRev2) tl2,
          rank := if curr2.rank > dst.rank then curr2.rank else dst.rank } := by
      show Except.bind (rc_aux dst.r src.rank [] (m :: ms))
          (fun x => Except.ok ({ dst with
            first := usmRev (x.2.1 :: x.1) x.2.2,
            rank := if x.2.1.rank > dst.rank then x.2.1.rank else dst.rank }
              : softheap)) =
        Except.ok { dst with
            first := usmRev (curr2 :: preRev2) tl2,
            rank := if curr2.rank > dst.rank then curr2.rank else dst.rank }
      rw [hrca]
      rfl
    exact ⟨_, hfinal⟩

/-- meld of two well-formed heaps never fails an assertion: its only failure
modes are the epsilon tolerance abort and the NULL dereferences of
merge_into and repeated_combine. -/
theorem meld_no_assert (P Q : softheap) (hPWF : WF0 P) (hQWF : WF0 Q)
    (h : meld P Q = .error .assertFail) : False := by
  obtain ⟨hPW, hPS, hPB, hPe0, hPe1⟩ := hPWF
  obtain ⟨hQW, hQS, hQB, hQe0, hQe1⟩ := hQWF
  simp only [meld] at h
  split_ifs at h with htol hrank
  · simp at h
  · rcases hm : merge_into Q.first P.first with e | M
    · rw [hm] at h
      replace h : (Except.error e : Except SHErr softheap) =
          .error .assertFail := h
      rw [Except.error.injEq] at h
      subst h
      have hmF : mergeIntoF (Q.first.length + P.first.length + 1)
          Q.first P.first = .error SHErr.assertFail := hm
      exact SHErr.noConfusion (mergeIntoF_error _ _ _ _ hmF)
    · rw [hm] at h
      replace h : repeated_combine { P with first := M } Q.rank P.r =
          .error .assertFail := h
      by_cases hMne : M = []
      · subst hMne
        simp [repeated_combine] at h
      · obtain ⟨R, hR⟩ := merge_rc_ok P Q M hPW hPS hQW hQS hQB hm hMne
        rw [hR] at h
        simp at h
  · rcases hm : merge_into P.first Q.first with e | M
    · rw [hm] at h
      replace h : (Except.error e : Except SHErr softheap) =
          .error .assertFail := h
      rw [Except.error.injEq] at h
      subst h
      have hmF : mergeIntoF (P.first.length + Q.first.length + 1)
          P.first Q.first = .error SHErr.assertFail := hm
      exact SHErr.noConfusion (mergeIntoF_error _ _ _ _ hmF)
    · rw [hm] at h
      replace h : repeated_combine { Q with first := M } P.rank Q.r =
          .error .assertFail := h
      by_cases hMne : M = []
      · subst hMne
        simp [repeated_combine] at h
      · obtain ⟨R, hR⟩ := merge_rc_ok Q P M hQW hQS hPW hPS hPB hm hMne
        rw [hR] at h
        simp at h

/-- get_r at a power of two: get_r(2^k) = k + 5. -/
theorem get_r_two_zpow (k : Int) : get_r ((2:ℚ) ^ k) = k + 5 := by
  unfold get_r
  rw [show ((2:ℚ)) = ((2:ℕ):ℚ) by norm_num, Int.clog_zpow (by norm_num)]

theorem mkRat_one_32 : (mkRat 1 32 : ℚ) = (2:ℚ) ^ (-5 : Int) := by
  rw [Rat.mkRat_eq_divInt, Rat.divInt_eq_div, zpow_neg]
  norm_num

theorem mkRat_one_64 : (mkRat 1 64 : ℚ) = (2:ℚ) ^ (-6 : Int) := by
  rw [Rat.mkRat_eq_divInt, Rat.divInt_eq_div, zpow_neg]
  norm_num

theorem mkRat_one_2 : (mkRat 1 2 : ℚ) = (2:ℚ) ^ (-1 : Int) := by
  rw [Rat.mkRat_eq_divInt, Rat.divInt_eq_div, zpow_neg]
  norm_num

theorem mkRat_one_4 : (mkRat 1 4 : ℚ) = (2:ℚ) ^ (-2 : Int) := by
  rw [Rat.mkRat_eq_divInt, Rat.divInt_eq_div, zpow_neg]
  norm_num

theorem get_r_at_32 : get_r (mkRat 1 32) = 0 := by
  rw [mkRat_one_32, get_r_two_zpow]; norm_num

theorem get_r_at_2 : get_r (mkRat 1 2) = 4 := by
  rw [mkRat_one_2, get_r_two_zpow]; norm_num

/-- The r formula demanded by the spec: max(5, ceil(log2(1/epsilon)) + 5). -/
def get_r_claimed (epsilon : ℚ) : Int := max 5 (Int.clog 2 epsilon⁻¹ + 5)

/-- C4: the spec requires r = max(5, ceil(log2(1/eps)) + 5), never below 5
and growing as epsilon shrinks.  The code computes ceil(log2(eps)) + 5
instead: at eps = 1/64 it yields -1 (spec: 11), and r shrinks as epsilon
shrinks (r(1/4) = 3 < 4 = r(1/2)), the opposite monotonicity.  This
contradicts the corruption guarantee documented in softheap.h. -/
theorem get_r_formula_bug :
    get_r (mkRat 1 64) = -1 ∧
    get_r_claimed (mkRat 1 64) = 11 ∧
    get_r (mkRat 1 64) < 5 ∧
    get_r (mkRat 1 4) < get_r (mkRat 1 2) := by
  have h64 : get_r (mkRat 1 64) = -1 := by
    rw [mkRat_one_64, get_r_two_zpow]; norm_num
  have h4 : get_r (mkRat 1 4) = 3 := by
    rw [mkRat_one_4, get_r_two_zpow]; norm_num
  refine ⟨h64, ?_, by rw [h64]; norm_num, by rw [h4, get_r_at_2]; norm_num⟩
  unfold get_r_claimed
  rw [mkRat_one_64, show ((2:ℚ) ^ (-6 : Int))⁻¹ = (2:ℚ) ^ (6 : Int) by
    rw [zpow_neg, inv_inv]]
  rw [show ((2:ℚ)) = ((2:ℕ):ℚ) by norm_num, Int.clog_zpow (by norm_num)]
  norm_num

/-- Concrete inputs for the combine size claim: two rank-1 nodes of size 2,
so the combined node has rank 2 and, with r = 0, its size is computed from
prevrank_size 2. -/
def c8x : node := node.mk onode.none onode.none [5] 5 1 2 1

/-- Second input node for the combine size claim. -/
def c8y : node := node.mk onode.none onode.none [6] 6 1 2 1

/-- C8 counterexample: combine on two rank-1 size-2 nodes with r = 0
produces size (3*2+1)/2 = 3 under C truncating division, not the ceiling
ceil((3*2+1)/2) = 4 stated by the claim. -/
theorem combine_size_counterexample :
    (combine c8x c8y 0).map node.size = .ok 3 ∧
    c8x.rank = c8y.rank ∧
    ¬ (c8x.rank + 1 ≤ 0) ∧
    (⌈(3 * ((c8x.size : Int) : ℚ) + 1) / 2⌉ : Int) = 4 := by
  refine ⟨by decide, by decide, by decide, ?_⟩
  show (⌈(3 * ((2 : Int) : ℚ) + 1) / 2⌉ : Int) = 4
  rw [show 3 * ((2 : Int) : ℚ) + 1 = 7 by norm_num, Int.ceil_eq_iff]
  norm_num

/-- C8 amended: a node z produced by combine(x, y, r) has size 1 when
z.rank = x.rank + 1 is at most r, and otherwise size (3*x.size + 1)/2
under C truncating division (the floor for nonnegative sizes, equal to
ceil(3*x.size/2), not to ceil((3*x.size+1)/2)). -/
theorem combine_size_amended (x y : node) (r : Int) (z : node)
    (h : combine x y r = .ok z) :
    z.size = if x.rank + 1 ≤ r then 1 else Int.tdiv (3 * x.size + 1) 2 := by
  unfold combine sift at h
  have hs := (siftF_size_rank _ _ _ h).1
  simpa [get_next_size] using hs

/-- The node produced by combine on the c8 inputs. -/
def c8z : node := node.mk onode.none onode.none [5, 6] 6 2 3 2

theorem combine_size_amended_witness :
    combine c8x c8y 0 = .ok c8z ∧
    c8z.size = if c8x.rank + 1 ≤ 0 then 1 else Int.tdiv (3 * c8x.size + 1) 2 :=
  ⟨by decide, combine_size_amended c8x c8y 0 c8z (by decide)⟩

/-- C9: constructing a heap with epsilon outside (0,1) aborts; extracting
from an empty heap aborts; melding heaps whose epsilons disagree beyond the
relative tolerance aborts.  In this pure model an abort returns an error
value and produces no heap, so no partially modified state can reach the
caller. -/
theorem error_handling_spec (eps : ℚ) (el : Int) (P Q : softheap) :
    (eps ≤ 0 ∨ 1 ≤ eps →
      makeheap_empty eps = .error .callerError ∧
      makeheap el eps = .error .callerError) ∧
    (empty P →
      extract_min_with_ckey P = .error .callerError ∧
      extract_min P = .error .callerError) ∧
    (1 - cmin P.epsilon Q.epsilon / cmax P.epsilon Q.epsilon > 1/1000 →
      meld P Q = .error .callerError) := by
  refine ⟨fun h => ?_, fun h => ?_, fun h => ?_⟩
  · have h1 : makeheap_empty eps = .error .callerError := by
      unfold makeheap_empty
      exact if_pos h
    refine ⟨h1, ?_⟩
    unfold makeheap
    rw [h1]
    rfl
  · have h2 : extract_min_with_ckey P = .error .callerError := by
      unfold extract_min_with_ckey
      rw [h]
    refine ⟨h2, ?_⟩
    unfold extract_min
    rw [h2]
    rfl
  · unfold meld
    exact if_pos h

/-- An empty heap with epsilon 1/5 (r = get_r(1/5) is irrelevant here). -/
def emptyFifth : softheap := { first := [], rank := -1, epsilon := mkRat 1 5, r := 3 }

/-- An empty heap with epsilon 1/2 and r = get_r(1/2) = 4. -/
def emptyHalf : softheap := { first := [], rank := -1, epsilon := mkRat 1 2, r := 4 }

theorem error_handling_spec_witness :
    makeheap_empty 2 = .error .callerError ∧
    extract_min_with_ckey emptyFifth = .error .callerError ∧
    meld emptyFifth emptyHalf = .error .callerError := by
  obtain ⟨h1, h2, h3⟩ := error_handling_spec 2 7 emptyFifth emptyHalf
  refine ⟨(h1 (Or.inr (by norm_num))).1, (h2 rfl).1, h3 ?_⟩
  show 1 - cmin (mkRat 1 5) (mkRat 1 2) / cmax (mkRat 1 5) (mkRat 1 2) > 1/1000
  have hm : cmin (mkRat 1 5) (mkRat 1 2) = mkRat 1 5 := by
    unfold cmin
    rw [if_pos]
    decide
  have hM : cmax (mkRat 1 5) (mkRat 1 2) = mkRat 1 2 := by
    unfold cmax
    rw [if_neg]
    decide
  rw [hm, hM, Rat.mkRat_eq_divInt, Rat.divInt_eq_div, Rat.mkRat_eq_divInt,
    Rat.divInt_eq_div]
  norm_num

/-- Relative epsilon tolerance of meld is not exceeded when the two heaps
carry the same nonzero epsilon. -/
theorem eps_off_self (e : ℚ) (he : e ≠ 0) :
    ¬ (1 - cmin e e / cmax e e > 1/1000) := by
  have hm : cmin e e = e := by unfold cmin; split <;> rfl
  have hM : cmax e e = e := by unfold cmax; split <;> rfl
  rw [hm, hM, div_self he]
  norm_num

/-- C3: melding two empty heaps with identical epsilon = 1/2 (created by
makeheap_empty, so the tolerance check passes) dereferences curr == NULL in
repeated_combine instead of returning the empty union heap. -/
theorem meld_empty_empty_crashes :
    makeheap_empty (mkRat 1 2) = .ok emptyHalf ∧
    ¬ (1 - cmin emptyHalf.epsilon emptyHalf.epsilon /
        cmax emptyHalf.epsilon emptyHalf.epsilon > 1/1000) ∧
    meld emptyHalf emptyHalf = .error .nullDeref := by
  have htol : ¬ (1 - cmin emptyHalf.epsilon emptyHalf.epsilon /
      cmax emptyHalf.epsilon emptyHalf.epsilon > 1/1000) :=
    eps_off_self (mkRat 1 2) (by decide)
  refine ⟨?_, htol, ?_⟩
  · unfold makeheap_empty
    rw [if_neg (by decide), get_r_at_2]
    rfl
  · unfold meld
    rw [if_neg htol, if_pos (le_refl _)]
    rfl

/-- Operation trace for the corruption bound: a heap created with
epsilon = 1/32 receives the two inserts 1 and 2 (n = 2 insertions). -/
def c1trace : Except SHErr softheap := do
  let P0 ← makeheap_empty (mkRat 1 32)
  let P1 ← insert P0 1
  insert P1 2

/-- C1: with epsilon = 1/32 the heap resulting from just 2 inserts already
holds 1 corrupted item, exceeding floor(eps * n) = floor(2/32) = 0.  The
root cause is the get_r formula bug: r(1/32) = 0, so the rank-1 node
produced by the first meld has size 2 and corrupts an item. -/
theorem corruption_bound_violated :
    c1trace.map corrupted = .ok 1 ∧ ⌊(mkRat 1 32 : ℚ) * 2⌋ = 0 := by
  constructor
  · have h0 : makeheap_empty (mkRat 1 32) =
        .ok { first := [], rank := -1, epsilon := mkRat 1 32, r := 0 } := by
      unfold makeheap_empty
      rw [if_neg (by decide), get_r_at_32]
    unfold c1trace
    rw [h0]
    show ((insert { first := [], rank := -1, epsilon := mkRat 1 32, r := 0 } 1).bind
      (fun P1 => insert P1 2)).map corrupted = .ok 1
    rw [show insert { first := [], rank := -1, epsilon := mkRat 1 32, r := 0 } 1 =
      .ok { first := [maketree 1], rank := 0, epsilon := mkRat 1 32, r := 0 } from rfl]
    show (insert { first := [maketree 1], rank := 0, epsilon := mkRat 1 32, r := 0 } 2).map
      corrupted = .ok 1
    unfold insert
    rw [if_neg (by decide)]
    rw [show makeheap 2 (softheap.epsilon
        { first := [maketree 1], rank := 0, epsilon := mkRat 1 32, r := 0 }) =
      .ok { first := [maketree 2], rank := 0, epsilon := mkRat 1 32,
            r := get_r (mkRat 1 32) } from rfl]
    show (meld { first := [maketree 1], rank := 0, epsilon := mkRat 1 32, r := 0 }
      { first := [maketree 2], rank := 0, epsilon := mkRat 1 32,
        r := get_r (mkRat 1 32) }).map corrupted = .ok 1
    unfold meld
    rw [if_neg (eps_off_self (mkRat 1 32) (by decide)), if_pos (le_refl _)]
    rfl
  · rw [Rat.mkRat_eq_divInt, Rat.divInt_eq_div]
    norm_num

/-- A concrete reachable heap (makeheap 5 with epsilon = 1/2) for exercising
the invariant theorems. -/
def heapHalf5 : softheap :=
  { first := [maketree 5], rank := 0, epsilon := mkRat 1 2, r := 4 }

theorem heapHalf5_mk : makeheap 5 (mkRat 1 2) = .ok heapHalf5 := by
  have h0 : makeheap_empty (mkRat 1 2) =
      .ok { first := [], rank := -1, epsilon := mkRat 1 2, r := 4 } := by
    rw [makeheap_empty, if_neg (by decide), get_r_at_2]
  show Except.bind (makeheap_empty (mkRat 1 2))
      (fun s => Except.ok { s with first := [maketree 5], rank := 0 }) =
    .ok heapHalf5
  rw [h0]
  rfl

theorem heapHalf5_reachable : reachable heapHalf5 :=
  reachable.mk 5 (mkRat 1 2) heapHalf5 heapHalf5_mk

/-- C7: after every public operation (the heaps reachable through makeheap,
insert, meld and the extraction functions), the ranks of the trees along the
root list are strictly increasing; this covers in particular the
three-equal-rank skip of repeated_combine, which the proof of the underlying
loop lemma handles as the carry-pending state of its invariant. -/
theorem root_ranks_strictly_increasing (P : softheap) (h : reachable P) :
    List.Pairwise (fun a b => a.rank < b.rank) P.first :=
  (ranksSorted_iff _).mp (reachable_WF P h).1.2.1

theorem root_ranks_strictly_increasing_witness :
    reachable heapHalf5 ∧
    List.Pairwise (fun a b => a.rank < b.rank) heapHalf5.first :=
  ⟨heapHalf5_reachable,
    root_ranks_strictly_increasing heapHalf5 heapHalf5_reachable⟩

/-- C6: between public operations, every node of the forest of a reachable
heap has a ckey that bounds from above every original key currently stored
in its item cells, recursively through the whole subtree of every root. -/
theorem ckey_bounds_item_keys (P : softheap) (h : reachable P) :
    ∀ t ∈ P.first, ckeyBoundN t.root := by
  intro t ht
  exact (NodeWF_flags t.root ((reachable_WF P h).1.1 t ht).1).1

theorem ckey_bounds_item_keys_witness :
    reachable heapHalf5 ∧ ∀ t ∈ heapHalf5.first, ckeyBoundN t.root :=
  ⟨heapHalf5_reachable, ckey_bounds_item_keys heapHalf5 heapHalf5_reachable⟩

/-- C5: after every public operation, every tree of the root list has a
sufmin offset that lands on a tree of the suffix starting at it whose root
ckey is minimal over that suffix (sufminOK states this recursively for every
position of the root list). -/
theorem sufmin_points_to_suffix_minimum (P : softheap) (h : reachable P) :
    sufminOK P.first :=
  (reachable_WF P h).2

theorem sufmin_points_to_suffix_minimum_witness :
    reachable heapHalf5 ∧ sufminOK heapHalf5.first :=
  ⟨heapHalf5_reachable,
    sufmin_points_to_suffix_minimum heapHalf5 heapHalf5_reachable⟩

/-- C10: between public operations every node of the forest of a reachable
heap holds a nonempty item list with nelems agreeing with it, and the
assertions of moveList (src->first != NULL, the assertFail of sift) and of
extract_elem (x->first != NULL) always hold: insert, meld with another
reachable heap, and extract_min_with_ckey never abort with an assertion
failure (their only aborts are caller errors and the NULL dereferences
modelled separately). -/
theorem forest_nodes_nonempty (P : softheap) (h : reachable P) :
    (∀ t ∈ P.first, nonemptyN t.root) ∧
    (∀ el : Int, insert P el ≠ .error .assertFail) ∧
    (∀ Q : softheap, reachable Q → meld P Q ≠ .error .assertFail) ∧
    extract_min_with_ckey P ≠ .error .assertFail := by
  obtain ⟨hWF, hsuf⟩ := reachable_WF P h
  have hWFc := hWF
  obtain ⟨hPW, hPS, hPB, hPe0, hPe1⟩ := hWFc
  refine ⟨?_, ?_, ?_, ?_⟩
  · intro t ht
    exact (NodeWF_flags t.root ((hPW t ht)).1).2
  · intro el hbad
    rw [insert] at hbad
    split_ifs at hbad with hemp
    · have hmke : makeheap_empty P.epsilon =
          .ok { first := [], rank := -1, epsilon := P.epsilon,
                r := get_r P.epsilon } := by
        rw [makeheap_empty, if_neg]
        push_neg
        exact ⟨hPe0, hPe1⟩
      have hmk : makeheap el P.epsilon =
          .ok { first := [maketree el], rank := 0, epsilon := P.epsilon,
                r := get_r P.epsilon } := by
        show Except.bind (makeheap_empty P.epsilon)
            (fun s => Except.ok ({ s with first := [maketree el], rank := 0 }
              : softheap)) = _
        rw [hmke]
        rfl
      rw [hmk] at hbad
      replace hbad : meld P
          { first := [maketree el], rank := 0, epsilon := P.epsilon,
            r := get_r P.epsilon } = .error .assertFail :=
        hbad
      exact meld_no_assert P _ hWF
        (makeheap_WF el P.epsilon _ hmk).1 hbad
  · intro Q2 hQ2 hbad
    exact meld_no_assert P Q2 hWF (reachable_WF Q2 hQ2).1 hbad
  · intro hbad
    rcases hfe : P.first with _ | ⟨t0, rest⟩
    · simp only [extract_min_with_ckey, hfe] at hbad
      simp at hbad
    · obtain ⟨out, hout⟩ := extract_ok P hWF hsuf (by rw [hfe]; simp)
      rw [hout] at hbad
      simp at hbad

theorem forest_nodes_nonempty_witness :
    reachable heapHalf5 ∧
    ((∀ t ∈ heapHalf5.first, nonemptyN t.root) ∧
    (∀ el : Int, insert heapHalf5 el ≠ .error .assertFail) ∧
    (∀ Q : softheap, reachable Q → meld heapHalf5 Q ≠ .error .assertFail) ∧
    extract_min_with_ckey heapHalf5 ≠ .error .assertFail) :=
  ⟨heapHalf5_reachable, forest_nodes_nonempty heapHalf5 heapHalf5_reachable⟩

end SoftHeap
